import Mathlib

/-!
Verification development for the Context Cache hybrid indexing-and-search
engine. The definitions below are shallow embeddings of the TypeScript
source: JavaScript strings are lists of characters, JavaScript numbers are
rationals (with an explicit NaN carrier where NaN is reachable), the SQLite
store is a record of table contents, and the possibly non-terminating
chunking loop is modelled with explicit fuel.
-/

-- The Batteries rational-number operations are irreducible by default,
-- which blocks kernel evaluation of concrete witnesses; restore the
-- ordinary reducibility so that decide can evaluate them.
set_option allowUnsafeReducibility true in
attribute [semireducible] Rat.add Rat.sub Rat.mul Rat.inv

namespace ContextCache

/-! ### JavaScript string primitives used by the chunker (chunker.ts) -/

/-- Whitespace characters removed by JavaScript trim (the ASCII subset;
the source inputs considered here contain only plain spaces). -/
def isJsWhitespace (c : Char) : Bool :=
  c = ' ' || c = '\t' || c = '\n' || c = '\r' || c = '\x0b' || c = '\x0c'

/-- JavaScript String.prototype.substring: both indices are clamped to
the interval from 0 to the length and swapped when out of order. -/
def jsSubstring (s : List Char) (a b : Int) : List Char :=
  let n : Int := s.length
  let a1 := min (max a 0) n
  let b1 := min (max b 0) n
  let lo := min a1 b1
  let hi := max a1 b1
  (s.drop lo.toNat).take (hi - lo).toNat

/-- JavaScript String.prototype.trim on a character list. -/
def jsTrim (s : List Char) : List Char :=
  ((s.dropWhile isJsWhitespace).reverse.dropWhile isJsWhitespace).reverse

/-- Scan downwards from index k for a space character; helper for the
JavaScript lastIndexOf call in the chunker. -/
def lastSpaceAux (s : List Char) : Nat → Int
  | 0 => if s.get? 0 = some ' ' then (0 : Int) else -1
  | k + 1 => if s.get? (k + 1) = some ' ' then ((k : Int) + 1) else lastSpaceAux s k

/-- JavaScript lastIndexOf for the single-character needle, a space: the
greatest index at most fromIdx (clamped into the string) holding a space,
or -1 when there is none. -/
def jsLastIndexOfSpace (s : List Char) (fromIdx : Int) : Int :=
  if s.length = 0 then -1
  else lastSpaceAux s (min (max fromIdx 0) ((s.length : Int) - 1)).toNat

/-! ### The Fragmenter (chunkText in chunker.ts)

The source loop mutates a start index (an arbitrary-precision JavaScript
number that can go negative, hence Int) and can fail to terminate, so the
loop is modelled with fuel: a result of none means the fuel ran out. -/

/-- Loop body of chunkText. Mirrors: take the window from start of length
chunkSize, back off the window end to the last space when the end is not
at input end and that space lies strictly after start, push the trimmed
window, advance start to the emitted end minus overlap, stop when the
emitted end reached the input end. -/
def chunkLoop (text : List Char) (chunkSize overlap : Int) :
    Nat → Int → List (List Char) → Option (List (List Char))
  | 0, _, _ => none
  | Nat.succ fuel, start, acc =>
    let n : Int := text.length
    if start < n then
      let e0 := start + chunkSize
      let e1 :=
        if e0 < n then
          let lastSpace := jsLastIndexOfSpace text e0
          if lastSpace > start then lastSpace else e0
        else e0
      let chunk := jsTrim (jsSubstring text start e1)
      if e1 ≥ n then some ((chunk :: acc).reverse)
      else chunkLoop text chunkSize overlap fuel (e1 - overlap) (chunk :: acc)
    else some acc.reverse

/-- The Fragmenter, chunkText: a text not longer than chunkSize is emitted
unchanged as the single chunk; otherwise the window loop runs. -/
def chunkText (fuel : Nat) (text : List Char) (chunkSize overlap : Int) :
    Option (List (List Char)) :=
  if (text.length : Int) ≤ chunkSize then some [text]
  else chunkLoop text chunkSize overlap fuel 0 []

/-- Instrumented variant of the chunk loop recording each emitted window
as the pair of its start and its (possibly backed-off) end. -/
def chunkWindowsLoop (text : List Char) (chunkSize overlap : Int) :
    Nat → Int → Option (List (Int × Int))
  | 0, _ => none
  | Nat.succ fuel, start =>
    let n : Int := text.length
    if start < n then
      let e0 := start + chunkSize
      let e1 :=
        if e0 < n then
          let lastSpace := jsLastIndexOfSpace text e0
          if lastSpace > start then lastSpace else e0
        else e0
      if e1 ≥ n then some [(start, e1)]
      else (chunkWindowsLoop text chunkSize overlap fuel (e1 - overlap)).map
        (fun ws => (start, e1) :: ws)
    else some []

/-- Windows of a chunkText run on a text longer than chunkSize. -/
def chunkWindows (fuel : Nat) (text : List Char) (chunkSize overlap : Int) :
    Option (List (Int × Int)) :=
  chunkWindowsLoop text chunkSize overlap fuel 0

/-- Chained overlap s ws states that the first window of ws starts at s and
every later window starts at the previous window's emitted end minus the
overlap; this is exactly how chunkText advances its start index. -/
def Chained (overlap : Int) : Int → List (Int × Int) → Prop
  | _, [] => True
  | s, w :: ws => w.1 = s ∧ Chained overlap (w.2 - overlap) ws

/-- Input on which the chunk loop never terminates: after the first
emission the start index becomes negative and the loop state repeats. -/
def loopText : List Char := "a bcdefghijklmnop".toList

/-- Input exhibiting a word-boundary backoff: fifteen characters with
spaces after hello and world. -/
def backoffText : List Char := "hello world foo".toList

/-! ### SHA-256 (the Hasher, hashing.ts and file-processor.ts)

Both fingerprint operations of the engine are SHA-256 digests of UTF-8
text rendered as lowercase hex; the hash is modelled bit-exactly below and
checked against the standard test vectors. -/

/-- Modulus of 32-bit words. -/
def m32 : Nat := 4294967296

/-- Rotate a 32-bit word right by n bits. -/
def rotr32 (n x : Nat) : Nat :=
  ((x >>> n) ||| (x <<< (32 - n))) % m32

/-- The 64 SHA-256 round constants. -/
def shaK : List Nat :=
  [1116352408, 1899447441, 3049323471, 3921009573, 961987163, 1508970993,
   2453635748, 2870763221, 3624381080, 310598401, 607225278, 1426881987,
   1925078388, 2162078206, 2614888103, 3248222580, 3835390401, 4022224774,
   264347078, 604807628, 770255983, 1249150122, 1555081692, 1996064986,
   2554220882, 2821834349, 2952996808, 3210313671, 3336571891, 3584528711,
   113926993, 338241895, 666307205, 773529912, 1294757372, 1396182291,
   1695183700, 1986661051, 2177026350, 2456956037, 2730485921, 2820302411,
   3259730800, 3345764771, 3516065817, 3600352804, 4094571909, 275423344,
   430227734, 506948616, 659060556, 883997877, 958139571, 1322822218,
   1537002063, 1747873779, 1955562222, 2024104815, 2227730452, 2361852424,
   2428436474, 2756734187, 3204031479, 3329325298]

/-- The SHA-256 initial hash value. -/
def shaH0 : List Nat :=
  [1779033703, 3144134277, 1013904242, 2773480762, 1359893119, 2600822924,
   528734635, 1541459225]

/-- SHA-256 padding: append the byte 0x80, zero bytes up to 56 modulo 64,
then the 64-bit big-endian bit length. -/
def shaPad (msg : List Nat) : List Nat :=
  let len := msg.length
  let bitLen := 8 * len
  let zeros := (64 - ((len + 9) % 64)) % 64
  msg ++ [0x80] ++ List.replicate zeros 0 ++
    [(bitLen >>> 56) % 256, (bitLen >>> 48) % 256, (bitLen >>> 40) % 256,
     (bitLen >>> 32) % 256, (bitLen >>> 24) % 256, (bitLen >>> 16) % 256,
     (bitLen >>> 8) % 256, bitLen % 256]

/-- Big-endian 32-bit words of a byte list. -/
def bytesToWordsBE : List Nat → List Nat
  | b0 :: b1 :: b2 :: b3 :: rest =>
    (b0 <<< 24 ||| b1 <<< 16 ||| b2 <<< 8 ||| b3) :: bytesToWordsBE rest
  | _ => []

/-- One step of the SHA-256 message-schedule extension. -/
def scheduleStep (w : Array Nat) (i : Nat) : Array Nat :=
  let w15 := w.getD (i - 15) 0
  let w2 := w.getD (i - 2) 0
  let s0 := (rotr32 7 w15) ^^^ (rotr32 18 w15) ^^^ (w15 >>> 3)
  let s1 := (rotr32 17 w2) ^^^ (rotr32 19 w2) ^^^ (w2 >>> 10)
  w.push ((w.getD (i - 16) 0 + s0 + w.getD (i - 7) 0 + s1) % m32)

/-- The 64-word message schedule of one block. -/
def buildSchedule (block : List Nat) : Array Nat :=
  (List.range 48).foldl (fun w i => scheduleStep w (i + 16)) block.toArray

/-- Working variables of the SHA-256 compression function. -/
structure ShaState where
  a : Nat
  b : Nat
  c : Nat
  d : Nat
  e : Nat
  f : Nat
  g : Nat
  h : Nat

/-- One round of the SHA-256 compression function. -/
def compressStep (w : Array Nat) (st : ShaState) (i : Nat) : ShaState :=
  let s1 := (rotr32 6 st.e) ^^^ (rotr32 11 st.e) ^^^ (rotr32 25 st.e)
  let ch := (st.e &&& st.f) ^^^ ((st.e ^^^ (m32 - 1)) &&& st.g)
  let t1 := (st.h + s1 + ch + shaK.getD i 0 + w.getD i 0) % m32
  let s0 := (rotr32 2 st.a) ^^^ (rotr32 13 st.a) ^^^ (rotr32 22 st.a)
  let mj := (st.a &&& st.b) ^^^ (st.a &&& st.c) ^^^ (st.b &&& st.c)
  let t2 := (s0 + mj) % m32
  ⟨(t1 + t2) % m32, st.a, st.b, st.c, (st.d + t1) % m32, st.e, st.f, st.g⟩

/-- Compress one 64-byte block into the running hash value. -/
def compressBlock (hv : List Nat) (block : List Nat) : List Nat :=
  let w := buildSchedule block
  let st0 : ShaState :=
    ⟨hv.getD 0 0, hv.getD 1 0, hv.getD 2 0, hv.getD 3 0,
     hv.getD 4 0, hv.getD 5 0, hv.getD 6 0, hv.getD 7 0⟩
  let st := (List.range 64).foldl (compressStep w) st0
  [(hv.getD 0 0 + st.a) % m32, (hv.getD 1 0 + st.b) % m32,
   (hv.getD 2 0 + st.c) % m32, (hv.getD 3 0 + st.d) % m32,
   (hv.getD 4 0 + st.e) % m32, (hv.getD 5 0 + st.f) % m32,
   (hv.getD 6 0 + st.g) % m32, (hv.getD 7 0 + st.h) % m32]

/-- SHA-256 digest of a byte message, as eight 32-bit words. -/
def sha256Words (msg : List Nat) : List Nat :=
  ((shaPad msg).toChunks 64).foldl
    (fun hv block => compressBlock hv (bytesToWordsBE block)) shaH0

/-- Lowercase hex digit of a value below sixteen. -/
def hexDigit (n : Nat) : Char :=
  if n < 10 then Char.ofNat (48 + n) else Char.ofNat (87 + n)

/-- Lowercase hex rendering of a 32-bit word. -/
def wordToHex (w : Nat) : List Char :=
  [hexDigit ((w >>> 28) % 16), hexDigit ((w >>> 24) % 16),
   hexDigit ((w >>> 20) % 16), hexDigit ((w >>> 16) % 16),
   hexDigit ((w >>> 12) % 16), hexDigit ((w >>> 8) % 16),
   hexDigit ((w >>> 4) % 16), hexDigit (w % 16)]

/-- UTF-8 encoding of one character. -/
def charUtf8 (c : Char) : List Nat :=
  let n := c.toNat
  if n < 0x80 then [n]
  else if n < 0x800 then [0xC0 ||| (n >>> 6), 0x80 ||| (n &&& 0x3F)]
  else if n < 0x10000 then
    [0xE0 ||| (n >>> 12), 0x80 ||| ((n >>> 6) &&& 0x3F), 0x80 ||| (n &&& 0x3F)]
  else
    [0xF0 ||| (n >>> 18), 0x80 ||| ((n >>> 12) &&& 0x3F),
     0x80 ||| ((n >>> 6) &&& 0x3F), 0x80 ||| (n &&& 0x3F)]

/-- SHA-256 of the UTF-8 bytes of a string, as lowercase hex, exactly the
digest the crypto module returns for createHash sha256 update digest hex. -/
def sha256hex (s : List Char) : List Char :=
  (sha256Words (s.flatMap charUtf8)).flatMap wordToHex

/-! ### IEEE-754 binary32 byte layout (embedding serialization)

processFileContent serializes an embedding with Buffer.from on the buffer
of a Float32Array, and vectorSearch reconstructs it by viewing the bytes
as a Float32Array: per component a float64-to-float32 rounding followed by
a little-endian 4-byte layout. The codec below models the binary32 format
over the rationals. -/

/-- Round a rational to the nearest integer, ties to even. -/
def roundNearestEven (q : ℚ) : ℤ :=
  let f := ⌊q⌋
  let r := q - (f : ℚ)
  if r < 1 / 2 then f
  else if 1 / 2 < r then f + 1
  else if f % 2 = 0 then f else f + 1

/-- Floor of the base-two logarithm of a natural number, by structural
recursion on a fuel bound so that the kernel can evaluate it. -/
def log2Aux : Nat → Nat → Nat
  | 0, _ => 0
  | fuel + 1, n => if n < 2 then 0 else 1 + log2Aux fuel (n / 2)

/-- Floor of the base-two logarithm of a natural number. -/
def natLog2floor (n : Nat) : Nat := log2Aux n n

/-- Ceiling of the base-two logarithm: the least k with n at most 2 ^ k. -/
def natClog2 (n : Nat) : Nat := if n ≤ 1 then 0 else natLog2floor (n - 1) + 1

/-- Floor of a positive rational, computed from numerator and denominator. -/
def ratFloorPos (a : ℚ) : Nat := a.num.toNat / a.den

/-- Ceiling of a positive rational, computed from numerator and
denominator. -/
def ratCeilPos (a : ℚ) : Nat := (a.num.toNat + a.den - 1) / a.den

/-- Floor of the base-two logarithm of a positive rational: the unique e
with 2 ^ e at most a and a below 2 ^ (e + 1). -/
def ratLog2 (a : ℚ) : ℤ :=
  if 1 ≤ a then (natLog2floor (ratFloorPos a) : ℤ)
  else -(natClog2 (ratCeilPos a⁻¹) : ℤ)

/-- Sign bit contribution of a binary32 encoding. -/
def signBit (q : ℚ) : Nat := if q < 0 then 2 ^ 31 else 0

/-- Encode a rational as a binary32 bit pattern with round-to-nearest-even,
the conversion performed by storing a JavaScript number into a
Float32Array. Values of magnitude at least two to the 128 encode as
infinity; magnitudes below two to the -126 take the subnormal path. -/
def encodeF32 (q : ℚ) : Nat :=
  if q = 0 then 0
  else if 128 ≤ ratLog2 |q| then signBit q + 0x7f800000
  else if ratLog2 |q| < -126 then
    signBit q + (roundNearestEven (|q| * 2 ^ (149 : ℕ))).toNat
  else if (roundNearestEven (|q| * (2 : ℚ) ^ (23 - ratLog2 |q|))).toNat = 2 ^ 24 then
    (if 128 ≤ ratLog2 |q| + 1 then signBit q + 0x7f800000
     else signBit q + (ratLog2 |q| + 1 + 127).toNat * 2 ^ 23)
  else signBit q + (ratLog2 |q| + 127).toNat * 2 ^ 23 +
    ((roundNearestEven (|q| * (2 : ℚ) ^ (23 - ratLog2 |q|))).toNat - 2 ^ 23)

/-- Decode a binary32 bit pattern into a rational. An all-ones exponent
field carries a NaN or infinity, which has no rational value; it is mapped
to zero and is never produced by the embedding pipeline modelled here. -/
def decodeF32 (w : Nat) : ℚ :=
  let s : Nat := w / 2 ^ 31 % 2
  let ef : Nat := w / 2 ^ 23 % 2 ^ 8
  let mf : Nat := w % 2 ^ 23
  let sign : ℚ := if s = 1 then -1 else 1
  if ef = 0 then sign * (mf : ℚ) * (2 : ℚ) ^ (-(149 : ℤ))
  else if ef = 255 then 0
  else sign * ((2 ^ 23 + mf : ℕ) : ℚ) * (2 : ℚ) ^ ((ef : ℤ) - 127 - 23)

/-- Rounding of a rational to 32-bit floating-point precision: the value
that survives a store into a Float32Array. -/
def roundF32 (q : ℚ) : ℚ := decodeF32 (encodeF32 q)

/-- Little-endian 4-byte layout of a 32-bit word. -/
def wordToBytesLE (w : Nat) : List Nat :=
  [w % 256, w / 256 % 256, w / 2 ^ 16 % 256, w / 2 ^ 24 % 256]

/-- Read a byte list as little-endian 32-bit words; a trailing group of
fewer than four bytes is dropped, as by a Float32Array view of length
byteLength over four. -/
def bytesToWordsLE : List Nat → List Nat
  | b0 :: b1 :: b2 :: b3 :: rest =>
    (b0 + 256 * b1 + 2 ^ 16 * b2 + 2 ^ 24 * b3) :: bytesToWordsLE rest
  | _ => []

/-- Serialize an embedding vector: per dimension the binary32 bit pattern
laid out as four little-endian bytes, concatenated in order. -/
def serializeEmbedding (v : List ℚ) : List Nat :=
  (v.map encodeF32).flatMap wordToBytesLE

/-- Reconstruct an embedding vector from its byte payload: little-endian
32-bit floats in order. -/
def reconstructEmbedding (bytes : List Nat) : List ℚ :=
  (bytesToWordsLE bytes).map decodeF32

/-! ### The store (init.ts, operations.ts)

One SQLite file holds the five content tables. Rows are modelled as
records, tables as lists in rowid order, and the AUTOINCREMENT counters
of files and chunks explicitly, since sqlite_sequence never hands out a
previously used rowid again. -/

/-- Row of the files table. -/
structure FileRow where
  id : Nat
  path : List Char
  hash : List Char
deriving DecidableEq

/-- Row of the chunks table; the embedding is the raw byte payload. -/
structure ChunkRow where
  id : Nat
  fileId : Nat
  chunkIndex : Nat
  content : List Char
  rawText : List Char
  embedding : Option (List Nat)
deriving DecidableEq

/-- Row of the chunks_fts lexical shadow table: the external row
identifier and the mirrored content. -/
structure FtsRow where
  rowid : Nat
  content : List Char
deriving DecidableEq

/-- Row of the conversations table. -/
structure ConvRow where
  id : List Char
  source : List Char
  sessionId : List Char
  timestamp : List Char
  archivePath : List Char
  exchangeCount : Nat
  hash : List Char
deriving DecidableEq

/-- Row of the exchanges table. -/
structure ExchRow where
  id : List Char
  conversationId : List Char
  exchangeIndex : Nat
  timestamp : List Char
  userMessage : List Char
  assistantMessage : List Char
  toolCalls : Option (List (List Char))
  parentId : Option (List Char)
  embedding : Option (List Nat)
deriving DecidableEq

/-- The whole database state. -/
structure Store where
  files : List FileRow
  chunks : List ChunkRow
  chunksFts : List FtsRow
  seqFiles : Nat
  seqChunks : Nat
  conversations : List ConvRow
  exchanges : List ExchRow
deriving DecidableEq

/-- A freshly initialized store. -/
def emptyStore : Store := ⟨[], [], [], 0, 0, [], []⟩

/-! ### Conversation shapes and the Hasher entry points (hashing.ts)

The provider parsers are external collaborators; the indexer receives
their output, a canonical conversation with ordered exchanges. -/

/-- Parsed conversation header, as produced by a provider parser. -/
structure ParsedConv where
  id : List Char
  source : List Char
  sessionId : List Char
  timestamp : List Char
  archivePath : List Char
  exchangeCount : Nat
deriving DecidableEq

/-- Parsed exchange, as produced by a provider parser. -/
structure ParsedExchange where
  id : List Char
  conversationId : List Char
  exchangeIndex : Nat
  timestamp : List Char
  userMessage : List Char
  assistantMessage : List Char
  toolCalls : Option (List (List Char))
  parentId : Option (List Char)
deriving DecidableEq

/-- Output of a provider parser: conversation plus ordered exchanges. -/
structure ParsedConversation where
  conversation : ParsedConv
  exchanges : List ParsedExchange
deriving DecidableEq

/-- JSON string escaping as performed by JSON.stringify; the inputs of
this development contain no control characters beyond the listed ones. -/
def jsonEscape (s : List Char) : List Char :=
  s.flatMap (fun c =>
    if c = '"' then ['\\', '"']
    else if c = '\\' then ['\\', '\\']
    else if c = '\n' then ['\\', 'n']
    else if c = '\r' then ['\\', 'r']
    else if c = '\t' then ['\\', 't']
    else [c])

/-- A JSON string literal. -/
def jsonQuote (s : List Char) : List Char := '"' :: (jsonEscape s ++ ['"'])

/-- Comma-join of rendered JSON values. -/
def joinComma : List (List Char) → List Char
  | [] => []
  | [x] => x
  | x :: xs => x ++ ',' :: joinComma xs

/-- Canonical JSON rendering of one exchange as built by
computeConversationHash: the exchange identifier, its index, the user
message and the assistant message, in that key order. -/
def canonicalExchangeJson (e : ParsedExchange) : List Char :=
  "\x7b\"id\":".toList ++ jsonQuote e.id ++
  ",\"index\":".toList ++ Nat.toDigits 10 e.exchangeIndex ++
  ",\"user_message\":".toList ++ jsonQuote e.userMessage ++
  ",\"assistant_message\":".toList ++ jsonQuote e.assistantMessage ++
  "\x7d".toList

/-- Canonical JSON rendering of a parsed conversation as built by
computeConversationHash: identifier, session identifier, source tag and
the exchange list, in that key order. -/
def canonicalConversationJson (d : ParsedConversation) : List Char :=
  "\x7b\"id\":".toList ++ jsonQuote d.conversation.id ++
  ",\"session_id\":".toList ++ jsonQuote d.conversation.sessionId ++
  ",\"source\":".toList ++ jsonQuote d.conversation.source ++
  ",\"exchanges\":[".toList ++ joinComma (d.exchanges.map canonicalExchangeJson) ++
  "]\x7d".toList

/-- The canonical conversation fingerprint of hashing.ts: SHA-256 of the
canonical JSON payload, lowercase hex. -/
def computeConversationHashM (d : ParsedConversation) : List Char :=
  sha256hex (canonicalConversationJson d)

/-- The raw-file fingerprint of hashing.ts, computeConversationFileHash:
SHA-256 of the full file content read as text. The model receives the
content directly in place of the file path. -/
def computeConversationFileHashM (content : List Char) : List Char :=
  sha256hex content

/-! ### JavaScript numbers with NaN, and the Vector Ranker (vector.ts) -/

/-- JavaScript double values as far as the vector ranker can observe them:
finite values are kept exact as rationals. -/
inductive JsNum where
  | nan : JsNum
  | inf : JsNum
  | ninf : JsNum
  | val : ℚ → JsNum
deriving DecidableEq

/-- JavaScript subtraction on the number model. -/
def jsub : JsNum → JsNum → JsNum
  | JsNum.nan, _ => JsNum.nan
  | _, JsNum.nan => JsNum.nan
  | JsNum.inf, JsNum.inf => JsNum.nan
  | JsNum.inf, _ => JsNum.inf
  | JsNum.ninf, JsNum.ninf => JsNum.nan
  | JsNum.ninf, _ => JsNum.ninf
  | JsNum.val _, JsNum.inf => JsNum.ninf
  | JsNum.val _, JsNum.ninf => JsNum.inf
  | JsNum.val p, JsNum.val q => JsNum.val (p - q)

/-- Whether a JavaScript number compares strictly below zero; NaN does
not. -/
def jltZero : JsNum → Bool
  | JsNum.val p => decide (p < 0)
  | JsNum.ninf => true
  | _ => false

/-- JavaScript division of finite values: zero over zero is NaN, a
nonzero value over zero is a signed infinity. -/
def jdivQ (p q : ℚ) : JsNum :=
  if q = 0 then
    (if p = 0 then JsNum.nan else if 0 < p then JsNum.inf else JsNum.ninf)
  else JsNum.val (p / q)

/-- Bounded search for the integer square root, by structural recursion so
that the kernel can evaluate it. -/
def natSqrtAux (n : Nat) : Nat → Nat
  | 0 => 0
  | k + 1 => if (k + 1) * (k + 1) ≤ n then k + 1 else natSqrtAux n k

/-- Integer square root. -/
def natSqrtL (n : Nat) : Nat := natSqrtAux n n

/-- Square root on the rationals: exact on perfect squares, which covers
every application in this development; elsewhere it takes the floor of
the square roots of numerator and denominator, preserving zero at zero
and positivity on positive inputs, the only facts the theorems use. -/
def ratSqrt (q : ℚ) : ℚ := (natSqrtL q.num.toNat : ℚ) / (natSqrtL q.den : ℚ)

/-- Dot product of the query against a stored vector: the source loop runs
over the indices of the query, so the stored vector is cut or padded by
the zip to the query length. -/
def dotProduct (a b : List ℚ) : ℚ := ((a.zip b).map (fun p => p.1 * p.2)).sum

/-- Sum of squares of a vector. -/
def sqNorm (a : List ℚ) : ℚ := (a.map (fun x => x * x)).sum

/-- The cosineSimilarity of vector.ts: dot product over the product of the
norms. The source loop indexes b by positions of a; reading past the end
of b yields undefined and NaN arithmetic, hence the length guard. The
norm of b sums only the first length-of-a entries, as the loop does. -/
def cosineSimilarity (a b : List ℚ) : JsNum :=
  if b.length < a.length then JsNum.nan
  else jdivQ (dotProduct a b)
    (ratSqrt (sqNorm a) * ratSqrt (sqNorm (b.take a.length)))

/-- Stable insertion of one element for the sort model: the element passes
every entry it does not strictly precede, so equal entries keep their
original relative order. -/
def jsSortInsert {α : Type} (lt : α → α → Bool) (x : α) : List α → List α
  | [] => [x]
  | y :: ys => if lt x y then x :: y :: ys else y :: jsSortInsert lt x ys

/-- Stable sort with a JavaScript comparator: x precedes y when the
comparator value of (x, y) is negative; a NaN comparator value counts as
zero, as the ECMAScript sort treats it. Array.prototype.sort is required
to be stable. -/
def jsSort {α : Type} (lt : α → α → Bool) (l : List α) : List α :=
  l.foldl (fun acc x => jsSortInsert lt x acc) []

/-- Comparator of vectorSearch: (a, b) => b.similarity - a.similarity. -/
def vsLt (x y : Nat × JsNum) : Bool := jltZero (jsub y.2 x.2)

/-- The Vector Ranker, vectorSearch of vector.ts: take every chunk whose
embedding is present, reconstruct the byte payload as a float vector,
compute the cosine similarity against the query, sort by similarity
descending, and cut to the limit. No zero-norm filtering happens. -/
def vectorSearchM (db : Store) (queryEmbedding : List ℚ) (lim : Nat) :
    List (Nat × JsNum) :=
  let withEmb := db.chunks.filterMap
    (fun c => c.embedding.map (fun bs => (c.id, reconstructEmbedding bs)))
  let results := withEmb.map (fun p => (p.1, cosineSimilarity queryEmbedding p.2))
  (jsSort vsLt results).take lim

/-! ### The Fuser (mergeWithRRF in rrf.ts) -/

/-- A ranked entry: identifier with fused score. The input entries of the
source carry raw ranker scores as well, but mergeWithRRF reads only the
identifier and the position of each input entry, so the model takes bare
identifier lists as inputs. -/
structure RankedResult where
  id : Nat
  score : ℚ
deriving DecidableEq

/-- Fold over a list together with the zero-based position of each
element, as forEach provides it. -/
def foldIdx {α β : Type} (f : β → Nat → α → β) : β → Nat → List α → β
  | b, _, [] => b
  | b, n, x :: xs => foldIdx f (f b n x) (n + 1) xs

/-- Lookup in the insertion-ordered accumulator map, with the default 0 of
the source expression scores.get(id) or-else 0. -/
def mapGetD (m : List (Nat × ℚ)) (i : Nat) : ℚ :=
  ((m.find? (fun p => p.1 = i)).map Prod.snd).getD 0

/-- Update of the insertion-ordered accumulator map: an existing key keeps
its position, a new key is appended, exactly as a JavaScript Map. -/
def mapSet : List (Nat × ℚ) → Nat → ℚ → List (Nat × ℚ)
  | [], i, v => [(i, v)]
  | p :: ps, i, v => if p.1 = i then (i, v) :: ps else p :: mapSet ps i v

/-- Accumulate one ranked list into the score map: each entry at zero-based
rank adds 1 / (k + rank + 1) to the score of its identifier. -/
def rrfAccumOne (k : ℚ) (m : List (Nat × ℚ)) (ids : List Nat) : List (Nat × ℚ) :=
  foldIdx (fun m r i => mapSet m i (mapGetD m i + 1 / (k + (r : ℚ) + 1))) m 0 ids

/-- Accumulate all ranked lists in order into the score map. -/
def rrfAccum (lists : List (List Nat)) (k : ℚ) : List (Nat × ℚ) :=
  lists.foldl (rrfAccumOne k) []

/-- Comparator of mergeWithRRF: (a, b) => b.score - a.score. -/
def rrfLt (x y : RankedResult) : Bool := decide (y.score - x.score < 0)

/-- The Fuser, mergeWithRRF of rrf.ts: accumulate reciprocal-rank scores
into the insertion-ordered map, turn the entries into ranked results, and
sort by score descending with the stable sort. -/
def mergeWithRRF (resultLists : List (List Nat)) (k : ℚ) : List RankedResult :=
  jsSort rrfLt ((rrfAccum resultLists k).map (fun p => ⟨p.1, p.2⟩))

/-- Contribution of one ranked list to the reference score, with the
enumeration starting at offset n: when the identifier sits at zero-based
position r of the list the term is 1 / (k + (n + r) + 1), otherwise 0. -/
def rrfListTerm (k : ℚ) (ids : List Nat) (n : Nat) (j : Nat) : ℚ :=
  match ids.findIdx? (fun x => x = j) n with
  | some r => 1 / (k + (r : ℚ) + 1)
  | none => 0

/-- Reference score of the claim for C4, amended: the sum over the input
lists containing the identifier of 1 / (k + rank + 1), rank the zero-based
position there. -/
def rrfSpecScore (lists : List (List Nat)) (k : ℚ) (i : Nat) : ℚ :=
  (lists.map (fun l => rrfListTerm k l 0 i)).sum

/-! ### Hybrid Search (hybrid.ts) -/

/-- A hydrated search result. -/
structure SearchResult where
  content : List Char
  sourcePath : List Char
  score : ℚ
  chunkIndex : Nat
deriving DecidableEq

/-- The retained slice of hybridSearch: the BM25 ranker runs inside SQLite
and is not part of the source, so its output identifier list is an input
here; the vector ranker is the model above, called with twice the limit
as in the source; the fused list is cut to the limit. -/
def hybridTop (db : Store) (bm25Ids : List Nat) (queryEmbedding : List ℚ)
    (lim : Nat) : List RankedResult :=
  (mergeWithRRF [bm25Ids, (vectorSearchM db queryEmbedding (lim * 2)).map Prod.fst]
    60).take lim

/-- The maxScore of hybridSearch: the score of the first retained entry,
with the source fallback 1 on an empty retained slice. -/
def hybridMaxS (top : List RankedResult) : ℚ :=
  match top.head? with | some r => r.score | none => 1

/-- The minScore of hybridSearch: the score of the last retained entry,
with the source fallback 0 on an empty retained slice. -/
def hybridMinS (top : List RankedResult) : ℚ :=
  match top.getLast? with | some r => r.score | none => 0

/-- Hydration of one retained entry through the chunks-to-files join, with
the min-max display normalization; a join miss yields none and is
skipped. -/
def hydrateResult (db : Store) (minS range : ℚ) (ranked : RankedResult) :
    Option SearchResult :=
  (db.chunks.find? (fun c => c.id = ranked.id)).bind (fun c =>
    (db.files.find? (fun f => f.id = c.fileId)).map (fun f =>
      { content := c.content
        sourcePath := f.path
        score := if 0 < range then (ranked.score - minS) / range else 1
        chunkIndex := c.chunkIndex }))

/-- Hybrid search, hybridSearch of hybrid.ts: display scores are min-max
normalized over the retained slice with the all-equal case mapping to 1,
and each retained identifier is hydrated through the chunks-to-files
join, a miss being skipped. -/
def hybridSearchM (db : Store) (bm25Ids : List Nat) (queryEmbedding : List ℚ)
    (lim : Nat) : List SearchResult :=
  let top := hybridTop db bm25Ids queryEmbedding lim
  top.filterMap (hydrateResult db (hybridMinS top) (hybridMaxS top - hybridMinS top))

/-! ### Note ingestion (operations.ts in part_009, indexer/index.ts)

The walk of the Markdown tree is filesystem work outside the store model;
the run receives the list of relative paths with their contents. The
embedder is an injected function. SQLite runs with foreign keys enforced
(the better-sqlite3 build sets them on by default), so deleting a file row
cascades into its chunks; nothing cascades into the chunks_fts virtual
table, which carries no foreign key. -/

/-- insertFile: a fresh autoincrement identifier, the row appended. -/
def insertFileM (db : Store) (path hash : List Char) : Store × Nat :=
  let newId := db.seqFiles + 1
  ({ db with files := db.files ++ [⟨newId, path, hash⟩], seqFiles := newId }, newId)

/-- getFileByPath. -/
def getFileByPathM (db : Store) (path : List Char) : Option FileRow :=
  db.files.find? (fun f => f.path = path)

/-- updateFileHash. -/
def updateFileHashM (db : Store) (fileId : Nat) (hash : List Char) : Store :=
  { db with files :=
      db.files.map (fun f => if f.id = fileId then { f with hash := hash } else f) }

/-- deleteFile; the foreign key cascades into chunks, and the lexical
shadow table is left untouched. -/
def deleteFileM (db : Store) (fileId : Nat) : Store :=
  { db with files := db.files.filter (fun f => ¬ f.id = fileId),
            chunks := db.chunks.filter (fun c => ¬ c.fileId = fileId) }

/-- deleteChunksByFileId: removes the chunk rows only; no statement
touches chunks_fts. -/
def deleteChunksByFileIdM (db : Store) (fileId : Nat) : Store :=
  { db with chunks := db.chunks.filter (fun c => ¬ c.fileId = fileId) }

/-- insertChunkWithEmbedding: fresh autoincrement identifier. -/
def insertChunkWithEmbeddingM (db : Store) (fileId idx : Nat)
    (content raw : List Char) (emb : List Nat) : Store × Nat :=
  let newId := db.seqChunks + 1
  ({ db with chunks := db.chunks ++ [⟨newId, fileId, idx, content, raw, some emb⟩],
             seqChunks := newId }, newId)

/-- The INSERT INTO chunks_fts statement of processFileContent. -/
def insertChunkFtsM (db : Store) (rowid : Nat) (content : List Char) : Store :=
  { db with chunksFts := db.chunksFts ++ [⟨rowid, content⟩] }

/-- processFileContent: chunk the content, and per chunk insert the chunk
row with its serialized embedding and the lexical shadow row keyed by the
fresh chunk identifier. The chunker may diverge, hence the fuel. -/
def processFileContentM (fuel : Nat) (db : Store) (fileId : Nat)
    (content : List Char) (chunkSize overlap : Int)
    (embedder : List Char → List ℚ) : Option Store :=
  (chunkText fuel content chunkSize overlap).map (fun chunks =>
    foldIdx (fun st i chunkContent =>
      let emb := serializeEmbedding (embedder chunkContent)
      let r := insertChunkWithEmbeddingM st fileId i chunkContent chunkContent emb
      insertChunkFtsM r.1 r.2 chunkContent) db 0 chunks)

/-- indexFiles of indexer/index.ts: first the deletion pass over the file
rows whose path is no longer on disk, then per disk file the
skip-unchanged, replace-on-change or insert path, keyed by the SHA-256 of
the file content. -/
def indexFilesM (fuel : Nat) (db : Store) (diskFiles : List (List Char × List Char))
    (chunkSize overlap : Int) (embedder : List Char → List ℚ) : Option Store :=
  let currentPaths := diskFiles.map Prod.fst
  let db1 := db.files.foldl (fun st f =>
    if f.path ∈ currentPaths then st
    else deleteFileM (deleteChunksByFileIdM st f.id) f.id) db
  diskFiles.foldl (fun ost file =>
    ost.bind (fun st =>
      let fileHash := sha256hex file.2
      match getFileByPathM st file.1 with
      | some existing =>
        if existing.hash = fileHash then some st
        else
          processFileContentM fuel
            (updateFileHashM (deleteChunksByFileIdM st existing.id) existing.id fileHash)
            existing.id file.2 chunkSize overlap embedder
      | none =>
        let r := insertFileM st file.1 fileHash
        processFileContentM fuel r.1 r.2 file.2 chunkSize overlap embedder))
    (some db1)

/-! ### Conversation ingestion (conversations/indexer.ts) -/

/-- getConversation: lookup by the primary-key identifier. -/
def getConversationM (db : Store) (id : List Char) : Option ConvRow :=
  db.conversations.find? (fun c => c.id = id)

/-- deleteExchangesForConversation. -/
def deleteExchangesForConversationM (db : Store) (cid : List Char) : Store :=
  { db with exchanges := db.exchanges.filter (fun e => ¬ e.conversationId = cid) }

/-- insertConversation: INSERT OR REPLACE by the primary key; the replace
deletes any existing row with the identifier, which also cascades into
exchanges, before inserting the new row. -/
def insertConversationM (db : Store) (p : ParsedConv) (hash : List Char) : Store :=
  { db with
      conversations := db.conversations.filter (fun c => ¬ c.id = p.id) ++
        [⟨p.id, p.source, p.sessionId, p.timestamp, p.archivePath, p.exchangeCount, hash⟩],
      exchanges := db.exchanges.filter (fun e => ¬ e.conversationId = p.id) }

/-- insertExchange. -/
def insertExchangeM (db : Store) (e : ParsedExchange) : Store :=
  { db with exchanges := db.exchanges ++
      [⟨e.id, e.conversationId, e.exchangeIndex, e.timestamp, e.userMessage,
        e.assistantMessage, e.toolCalls, e.parentId, none⟩] }

/-- deleteConversation: the delete statement on conversations; exchanges
go with it through ON DELETE CASCADE. -/
def deleteConversationM (db : Store) (id : List Char) : Store :=
  { db with conversations := db.conversations.filter (fun c => ¬ c.id = id),
            exchanges := db.exchanges.filter (fun e => ¬ e.conversationId = id) }

/-- indexConversationFile: the parser output and the file content stand in
for the file path. The skip test compares the stored hash against the
SHA-256 of the raw file content; otherwise one transaction deletes the
old exchanges, upserts the conversation with that hash and inserts the
fresh exchanges in order. The per-exchange embedding generation is
optional in the source and independent of the skip decision. -/
def indexConversationFileM (db : Store) (fileContent : List Char)
    (parsed : ParsedConversation) : Store × Bool :=
  let fileHash := computeConversationFileHashM fileContent
  let tx : Store → Store := fun st =>
    parsed.exchanges.foldl insertExchangeM
      (insertConversationM (deleteExchangesForConversationM st parsed.conversation.id)
        parsed.conversation fileHash)
  match getConversationM db parsed.conversation.id with
  | some existing =>
    if existing.hash = fileHash then (db, false) else (tx db, true)
  | none => (tx db, true)

/-- getAllConversationsBySource. -/
def getAllConversationsBySourceM (db : Store) (src : List Char) : List ConvRow :=
  db.conversations.filter (fun c => c.source = src)

/-- Delete-detection pass of indexConversationFiles: every copilot
conversation whose non-empty archive pointer is absent from the current
artifact list is deleted, with its exchanges. -/
def conversationDeletePass (db : Store) (filePaths : List (List Char)) : Store :=
  (getAllConversationsBySourceM db "copilot".toList).foldl
    (fun st conv =>
      if conv.archivePath ≠ [] ∧ conv.archivePath ∉ filePaths then
        deleteConversationM st conv.id
      else st) db

/-- indexConversationFiles: the delete-detection pass, then each artifact
indexed in order; an artifact is its path, its content and its parse. -/
def indexConversationFilesM (db : Store)
    (artifacts : List (List Char × List Char × ParsedConversation)) : Store :=
  let db1 := conversationDeletePass db (artifacts.map Prod.fst)
  artifacts.foldl (fun st a => (indexConversationFileM st a.2.1 a.2.2).1) db1

/-! ### Reset (reset.ts) -/

/-- resetDatabase: deletes all rows of chunks, files and chunks_fts,
clears the autoincrement counters of files and chunks, and runs VACUUM,
which changes no table content. The conversations and exchanges tables
appear in no statement. -/
def resetDatabaseM (db : Store) : Store :=
  { db with files := [], chunks := [], chunksFts := [], seqFiles := 0, seqChunks := 0 }

/-! ### Concrete inputs for the counterexamples and witnesses -/

/-- A line-delimited artifact whose only difference from
conversationContentB is the wall-clock timestamp field. -/
def conversationContentA : List Char :=
  "\x7b\"type\":\"session.start\",\"timestamp\":\"2024-01-01T00:00:00Z\"\x7d".toList

/-- The re-exported artifact: same events, a later timestamp. -/
def conversationContentB : List Char :=
  "\x7b\"type\":\"session.start\",\"timestamp\":\"2024-01-02T09:30:00Z\"\x7d".toList

/-- The canonical parse both artifact versions yield: the parsers drop
wall-clock metadata from the canonical payload. -/
def conversationParsed : ParsedConversation :=
  { conversation :=
      { id := "sess-1".toList, source := "copilot".toList,
        sessionId := "sess-1".toList, timestamp := "2024-01-01T00:00:00Z".toList,
        archivePath := "a.jsonl".toList, exchangeCount := 1 },
    exchanges :=
      [{ id := "e-1".toList, conversationId := "sess-1".toList, exchangeIndex := 0,
         timestamp := "2024-01-01T00:00:05Z".toList, userMessage := "hi".toList,
         assistantMessage := "hello".toList, toolCalls := none, parentId := none }] }

/-- Store state after ingesting the first artifact version. -/
def conversationDbA : Store :=
  (indexConversationFileM emptyStore conversationContentA conversationParsed).1

/-- A store holding one chunk whose embedding is the zero vector of
dimension three. -/
def zeroEmbStore : Store :=
  { emptyStore with
      files := [⟨1, "a.md".toList, "h".toList⟩],
      chunks := [⟨1, 1, 0, "text".toList, "text".toList,
        some (serializeEmbedding [0, 0, 0])⟩],
      chunksFts := [⟨1, "text".toList⟩],
      seqFiles := 1, seqChunks := 1 }

/-- A store holding one conversation with one exchange, for the reset
counterexample. -/
def resetExampleStore : Store :=
  { emptyStore with
      conversations := [⟨"c1".toList, "copilot".toList, "c1".toList,
        "2024-01-01".toList, "c1.jsonl".toList, 1, "h1".toList⟩],
      exchanges := [⟨"e1".toList, "c1".toList, 0, "2024-01-01".toList,
        "u".toList, "a".toList, none, none, none⟩] }

/-- First note-ingestion run: one new file. -/
def notesRun1 : Option Store :=
  indexFilesM 9 emptyStore [("a.md".toList, "hello".toList)] 500 50 (fun _ => [])

/-- Second note-ingestion run: the same file with changed content. -/
def notesRun2 : Option Store :=
  notesRun1.bind (fun db =>
    indexFilesM 9 db [("a.md".toList, "hello world".toList)] 500 50 (fun _ => []))

/-- A store has an orphaned lexical shadow row when some chunks_fts row
matches no live chunk identifier. -/
def hasOrphanFts (db : Store) : Bool :=
  db.chunksFts.any (fun r => ¬ db.chunks.any (fun c => c.id = r.rowid))

/-- The descending-score order of the fused output. -/
def scoreGe (a b : RankedResult) : Prop := b.score ≤ a.score

/-- Lexical shadow coherence: every live Fragment row owns exactly one
chunks_fts row keyed by its identifier. -/
def chunkFtsCoherent (db : Store) : Prop :=
  ∀ c ∈ db.chunks, db.chunksFts.countP (fun r => r.rowid = c.id) = 1

instance (db : Store) : Decidable (chunkFtsCoherent db) :=
  inferInstanceAs (Decidable (∀ c ∈ db.chunks,
    db.chunksFts.countP (fun r => r.rowid = c.id) = 1))

/-- Chunk identifiers and shadow rowids never exceed the chunks
autoincrement counter, so a fresh identifier collides with neither. -/
def seqBounded (db : Store) : Prop :=
  (∀ c ∈ db.chunks, c.id ≤ db.seqChunks) ∧
  (∀ r ∈ db.chunksFts, r.rowid ≤ db.seqChunks)

instance (db : Store) : Decidable (seqBounded db) :=
  inferInstanceAs (Decidable ((∀ c ∈ db.chunks, c.id ≤ db.seqChunks) ∧
    (∀ r ∈ db.chunksFts, r.rowid ≤ db.seqChunks)))

/-- The per-file body of the ingestion fold of indexFiles: skip the
unchanged file, replace the chunks of a changed one, insert a new one. -/
def indexFileStepM (fuel : Nat) (chunkSize overlap : Int)
    (embedder : List Char → List ℚ) (st : Store)
    (file : List Char × List Char) : Option Store :=
  let fileHash := sha256hex file.2
  match getFileByPathM st file.1 with
  | some existing =>
    if existing.hash = fileHash then some st
    else
      processFileContentM fuel
        (updateFileHashM (deleteChunksByFileIdM st existing.id) existing.id fileHash)
        existing.id file.2 chunkSize overlap embedder
  | none =>
    let r := insertFileM st file.1 fileHash
    processFileContentM fuel r.1 r.2 file.2 chunkSize overlap embedder

/-- The store produced by the first note-ingestion run. -/
def notesRun1Store : Store := notesRun1.getD emptyStore

/-! ## Theorems -/

/-- The window list determines the chunk list: every emitted chunk is the
trimmed substring of its recorded window. -/
theorem chunkLoop_eq_windows (text : List Char) (chunkSize overlap : Int) :
    ∀ (fuel : Nat) (start : Int) (acc : List (List Char)) (ws : List (Int × Int)),
      chunkWindowsLoop text chunkSize overlap fuel start = some ws →
      chunkLoop text chunkSize overlap fuel start acc =
        some (acc.reverse ++ ws.map (fun w => jsTrim (jsSubstring text w.1 w.2))) := by
  intro fuel
  induction fuel with
  | zero => intro start acc ws h; simp [chunkWindowsLoop] at h
  | succ fuel ih =>
    intro start acc ws h
    simp only [chunkWindowsLoop, chunkLoop] at *
    by_cases hs : start < (text.length : Int)
    · simp only [hs, if_true] at h ⊢
      by_cases he :
          (if start + chunkSize < (text.length : Int) then
            if jsLastIndexOfSpace text (start + chunkSize) > start then
              jsLastIndexOfSpace text (start + chunkSize)
            else start + chunkSize
          else start + chunkSize) ≥ (text.length : Int)
      · simp only [he, if_true] at h ⊢
        cases h
        simp
      · simp only [he, if_false] at h ⊢
        cases hrec : chunkWindowsLoop text chunkSize overlap fuel
            ((if start + chunkSize < (text.length : Int) then
              if jsLastIndexOfSpace text (start + chunkSize) > start then
                jsLastIndexOfSpace text (start + chunkSize)
              else start + chunkSize
            else start + chunkSize) - overlap) with
        | none => rw [hrec] at h; simp at h
        | some ws0 =>
          rw [hrec] at h
          simp only [Option.map_some'] at h
          cases h
          rw [ih _ _ _ hrec]
          simp [List.append_assoc]
    · simp only [hs, if_false] at h ⊢
      cases h
      simp

/-- A successful instrumented run determines the chunkText output. -/
theorem chunkText_eq_of_windows (fuel : Nat) (text : List Char)
    (chunkSize overlap : Int) (ws : List (Int × Int))
    (h : chunkWindows fuel text chunkSize overlap = some ws)
    (hlong : ¬ (text.length : Int) ≤ chunkSize) :
    chunkText fuel text chunkSize overlap =
      some (ws.map (fun w => jsTrim (jsSubstring text w.1 w.2))) := by
  rw [chunkText, if_neg hlong, chunkLoop_eq_windows text chunkSize overlap fuel 0 [] ws h]
  simp

/-- Every successful instrumented run is chained: each window starts at the
previous emitted end minus the overlap. -/
theorem chunkWindowsLoop_chained (text : List Char) (chunkSize overlap : Int) :
    ∀ (fuel : Nat) (start : Int) (ws : List (Int × Int)),
      chunkWindowsLoop text chunkSize overlap fuel start = some ws →
      Chained overlap start ws := by
  intro fuel
  induction fuel with
  | zero => intro start ws h; simp [chunkWindowsLoop] at h
  | succ fuel ih =>
    intro start ws h
    simp only [chunkWindowsLoop] at h
    by_cases hs : start < (text.length : Int)
    · simp only [hs, if_true] at h
      by_cases he :
          (if start + chunkSize < (text.length : Int) then
            if jsLastIndexOfSpace text (start + chunkSize) > start then
              jsLastIndexOfSpace text (start + chunkSize)
            else start + chunkSize
          else start + chunkSize) ≥ (text.length : Int)
      · simp only [he, if_true] at h
        cases h
        exact ⟨rfl, trivial⟩
      · simp only [he, if_false] at h
        cases hrec : chunkWindowsLoop text chunkSize overlap fuel
            ((if start + chunkSize < (text.length : Int) then
              if jsLastIndexOfSpace text (start + chunkSize) > start then
                jsLastIndexOfSpace text (start + chunkSize)
              else start + chunkSize
            else start + chunkSize) - overlap) with
        | none => rw [hrec] at h; simp at h
        | some ws0 =>
          rw [hrec] at h
          simp only [Option.map_some'] at h
          cases h
          exact ⟨rfl, ih _ _ hrec⟩
    · simp only [hs, if_false] at h
      cases h
      trivial

/-- Consecutive windows of a chained list are linked by the advance rule. -/
theorem chained_consecutive (overlap : Int) :
    ∀ (ws : List (Int × Int)) (s : Int), Chained overlap s ws →
      ∀ (i : Nat) (hi : i + 1 < ws.length),
        (ws.get ⟨i + 1, hi⟩).1 = (ws.get ⟨i, Nat.lt_of_succ_lt hi⟩).2 - overlap := by
  intro ws
  induction ws with
  | nil => intro s _ i hi; simp at hi
  | cons w rest ih =>
    intro s hch i hi
    cases i with
    | zero =>
      cases rest with
      | nil => simp at hi
      | cons w2 rest2 =>
        have h2 := hch.2
        exact h2.1
    | succ j =>
      have hlen : j + 1 < rest.length := by
        simpa using hi
      exact ih (w.2 - overlap) hch.2 j hlen

/-- Step equation of the diverging run: from start index -4 on loopText the
loop emits the chunk a and returns to start index -4. -/
theorem chunkLoop_loopText_step (fuel : Nat) (acc : List (List Char)) :
    chunkLoop loopText 10 5 (fuel + 1) (-4) acc =
      chunkLoop loopText 10 5 fuel (-4) (['a'] :: acc) := by
  rfl

/-- Initial step of the diverging run: from start index 0 the loop emits a
and moves the start index to -4. -/
theorem chunkLoop_loopText_start (fuel : Nat) (acc : List (List Char)) :
    chunkLoop loopText 10 5 (fuel + 1) 0 acc =
      chunkLoop loopText 10 5 fuel (-4) (['a'] :: acc) := by
  rfl

/-- From start index -4 the loop on loopText never terminates: it runs out
of any amount of fuel. -/
theorem chunkLoop_loopText_diverges :
    ∀ (fuel : Nat) (acc : List (List Char)),
      chunkLoop loopText 10 5 fuel (-4) acc = none := by
  intro fuel
  induction fuel with
  | zero => intro acc; rfl
  | succ fuel ih =>
    intro acc
    rw [chunkLoop_loopText_step]
    exact ih _

/-- Fuel bound for the base-two logarithm: every natural below its fuel is
below two to the successor of its computed logarithm. -/
theorem log2Aux_upper : ∀ (fuel n : Nat), n ≤ fuel → n < 2 ^ (log2Aux fuel n + 1) := by
  intro fuel
  induction fuel with
  | zero =>
    intro n hn
    have h0 : n = 0 := by omega
    subst h0
    decide
  | succ fuel ih =>
    intro n hn
    rw [log2Aux]
    by_cases h2 : n < 2
    · simp [h2]
    · simp only [h2, if_false]
      have hrec : n / 2 ≤ fuel := by omega
      have hlt := ih (n / 2) hrec
      have h1 : n < 2 * (n / 2 + 1) := by omega
      calc n < 2 * (n / 2 + 1) := h1
        _ ≤ 2 * 2 ^ (log2Aux fuel (n / 2) + 1) := by
            have := hlt
            omega
        _ = 2 ^ (1 + log2Aux fuel (n / 2) + 1) := by ring

/-- Fuel bound for the base-two logarithm, lower side: two to the computed
logarithm is at most the input. -/
theorem log2Aux_lower : ∀ (fuel n : Nat), 1 ≤ n → n ≤ fuel → 2 ^ (log2Aux fuel n) ≤ n := by
  intro fuel
  induction fuel with
  | zero => intro n h1 h2; omega
  | succ fuel ih =>
    intro n h1 hn
    rw [log2Aux]
    by_cases h2 : n < 2
    · simp [h2, h1]
    · simp only [h2, if_false]
      have hrec := ih (n / 2) (by omega) (by omega)
      calc 2 ^ (1 + log2Aux fuel (n / 2)) = 2 * 2 ^ (log2Aux fuel (n / 2)) := by ring
        _ ≤ 2 * (n / 2) := by omega
        _ ≤ n := by omega

/-- The computed base-two logarithm of a positive rational is strict: the
value is below two to the successor of its logarithm. -/
theorem ratLog2_upper (a : ℚ) (ha : 0 < a) : a < (2 : ℚ) ^ (ratLog2 a + 1) := by
  rw [ratLog2]
  by_cases h1 : 1 ≤ a
  · simp only [h1, if_true]
    have hnum : 0 < a.num := Rat.num_pos.mpr ha
    have hden : 0 < (a.den : ℚ) := by exact_mod_cast a.pos
    set f := ratFloorPos a with hf
    have hkey : a.num.toNat < (f + 1) * a.den := by
      rw [hf, ratFloorPos]
      calc a.num.toNat = a.den * (a.num.toNat / a.den) + a.num.toNat % a.den :=
            (Nat.div_add_mod _ _).symm
        _ < a.den * (a.num.toNat / a.den) + a.den :=
            Nat.add_lt_add_left (Nat.mod_lt _ a.pos) _
        _ = (a.num.toNat / a.den + 1) * a.den := by ring
    have hcast : a < (f : ℚ) + 1 := by
      have hn : a = (a.num : ℚ) / (a.den : ℚ) := (Rat.num_div_den a).symm
      rw [hn, div_lt_iff₀ hden]
      have : (a.num : ℚ) = (a.num.toNat : ℚ) := by
        congr 1
        omega
      rw [this]
      calc (a.num.toNat : ℚ) < (((f + 1) * a.den : ℕ) : ℚ) := by exact_mod_cast hkey
        _ = ((f : ℚ) + 1) * (a.den : ℚ) := by push_cast; ring
    have hlog := log2Aux_upper f f le_rfl
    have hle : (f : ℚ) + 1 ≤ (2 : ℚ) ^ (natLog2floor f + 1) := by
      have : (f + 1 : ℕ) ≤ 2 ^ (natLog2floor f + 1) := by
        rw [natLog2floor]; omega
      exact_mod_cast this
    have hz : (2 : ℚ) ^ ((natLog2floor f : ℤ) + 1) = (2 : ℚ) ^ (natLog2floor f + 1) := by
      rw [show ((natLog2floor f : ℤ) + 1) = ((natLog2floor f + 1 : ℕ) : ℤ) by push_cast; ring,
        zpow_natCast]
    rw [hz]
    exact hcast.trans_le hle
  · simp only [h1, if_false]
    have ha1 : a < 1 := lt_of_not_le h1
    set b := a⁻¹ with hb
    have hb1 : 1 < b := one_lt_inv_iff₀.mpr ⟨ha, ha1⟩
    have hbpos : 0 < b := lt_trans one_pos hb1
    have hbnum : 0 < b.num := Rat.num_pos.mpr hbpos
    have hbden : 0 < (b.den : ℚ) := by exact_mod_cast b.pos
    have hnd : (b.den : ℕ) < b.num.toNat := by
      have h2 : (b.den : ℚ) < (b.num : ℚ) := by
        have h3 : (1 : ℚ) < (b.num : ℚ) / (b.den : ℚ) := by
          rw [Rat.num_div_den]
          exact hb1
        rw [lt_div_iff₀ hbden, one_mul] at h3
        exact h3
      have h4 : (b.den : ℤ) < b.num := by exact_mod_cast h2
      omega
    set cb := ratCeilPos b with hcb
    have hcb2 : 2 ≤ cb := by
      rw [hcb, ratCeilPos]
      have h5 : 2 * b.den ≤ b.num.toNat + b.den - 1 := by omega
      have h6 : 2 * b.den / b.den ≤ (b.num.toNat + b.den - 1) / b.den :=
        Nat.div_le_div_right h5
      rw [Nat.mul_div_cancel _ b.pos] at h6
      exact h6
    have hclog : natClog2 cb = natLog2floor (cb - 1) + 1 := by
      rw [natClog2, if_neg (by omega)]
    have hlow := log2Aux_lower (cb - 1) (cb - 1) (by omega) le_rfl
    have hdcb : b.den * cb ≤ b.num.toNat + b.den - 1 := by
      rw [hcb, ratCeilPos]
      exact Nat.mul_div_le _ _
    have hkey : b.den * (cb - 1) < b.num.toNat := by
      have e1 : b.den * cb = b.den * (cb - 1) + b.den := by
        have h7 : cb - 1 + 1 = cb := by omega
        calc b.den * cb = b.den * ((cb - 1) + 1) := by rw [h7]
          _ = b.den * (cb - 1) + b.den := by ring
      rw [e1] at hdcb
      have hd1 : 1 ≤ b.den := b.pos
      generalize b.den * (cb - 1) = x at hdcb ⊢
      omega
    have hcast : ((cb : ℚ) - 1) < b := by
      have hn : b = (b.num : ℚ) / (b.den : ℚ) := (Rat.num_div_den b).symm
      rw [hn, lt_div_iff₀ hbden]
      have h3 : (b.num : ℚ) = (b.num.toNat : ℚ) := by congr 1; omega
      rw [h3]
      calc ((cb : ℚ) - 1) * (b.den : ℚ) = ((b.den * (cb - 1) : ℕ) : ℚ) := by
            push_cast [Nat.cast_sub (by omega : 1 ≤ cb)]
            ring
        _ < (b.num.toNat : ℚ) := by exact_mod_cast hkey
    have hpow : (2 : ℚ) ^ ((natLog2floor (cb - 1) : ℕ)) ≤ (cb : ℚ) - 1 := by
      have : ((2 ^ natLog2floor (cb - 1) : ℕ) : ℚ) ≤ ((cb - 1 : ℕ) : ℚ) := by
        exact_mod_cast hlow
      calc (2 : ℚ) ^ ((natLog2floor (cb - 1) : ℕ)) =
            ((2 ^ natLog2floor (cb - 1) : ℕ) : ℚ) := by push_cast; ring
        _ ≤ ((cb - 1 : ℕ) : ℚ) := this
        _ = (cb : ℚ) - 1 := by push_cast [Nat.cast_sub (by omega : 1 ≤ cb)]; ring
    have hbig : (2 : ℚ) ^ ((natLog2floor (cb - 1) : ℕ)) < b := hpow.trans_lt hcast
    have hposp : (0 : ℚ) < (2 : ℚ) ^ ((natLog2floor (cb - 1) : ℕ)) := by positivity
    have hinv : b⁻¹ < ((2 : ℚ) ^ ((natLog2floor (cb - 1) : ℕ)))⁻¹ := by
      exact inv_strictAnti₀ hposp hbig
    have haeq : a = b⁻¹ := by rw [hb, inv_inv]
    rw [haeq, hclog]
    have hzp : (2 : ℚ) ^ (-((natLog2floor (cb - 1) + 1 : ℕ) : ℤ) + 1) =
        ((2 : ℚ) ^ ((natLog2floor (cb - 1) : ℕ)))⁻¹ := by
      rw [show (-((natLog2floor (cb - 1) + 1 : ℕ) : ℤ) + 1) =
          -((natLog2floor (cb - 1) : ℕ) : ℤ) by push_cast; ring]
      rw [zpow_neg, zpow_natCast]
    rw [hzp]
    exact hinv

/-- The rounding helper never exceeds the floor plus one. -/
theorem roundNearestEven_le (q : ℚ) : roundNearestEven q ≤ ⌊q⌋ + 1 := by
  rw [roundNearestEven]
  split
  · omega
  · split
    · omega
    · split <;> omega

/-- A rounded value below a natural bound stays below it after truncation
to a natural number. -/
theorem roundNearestEven_toNat_le (q : ℚ) (n : ℕ) (h : q < (n : ℚ)) :
    (roundNearestEven q).toNat ≤ n := by
  have h1 := roundNearestEven_le q
  have h2 : ⌊q⌋ < (n : ℤ) := Int.floor_lt.mpr (by exact_mod_cast h)
  omega

/-- Every encoded binary32 bit pattern fits in 32 bits. -/
theorem encodeF32_lt (q : ℚ) : encodeF32 q < 2 ^ 32 := by
  have hsb : signBit q ≤ 2 ^ 31 := by
    rw [signBit]
    split <;> omega
  rw [encodeF32]
  by_cases h0 : q = 0
  · simp [h0]
  · simp only [h0, if_false]
    have hapos : 0 < |q| := abs_pos.mpr h0
    have hup := ratLog2_upper |q| hapos
    by_cases hinf : 128 ≤ ratLog2 |q|
    · simp only [hinf, if_true]
      omega
    · simp only [hinf, if_false]
      by_cases hsub : ratLog2 |q| < -126
      · simp only [hsub, if_true]
        have hbound : |q| * 2 ^ (149 : ℕ) < ((2 ^ 23 : ℕ) : ℚ) := by
          have h2 : (2 : ℚ) ^ (ratLog2 |q| + 1) ≤ (2 : ℚ) ^ (-126 : ℤ) := by
            apply zpow_le_zpow_right₀ (by norm_num)
            omega
          have h3 : |q| * 2 ^ (149 : ℕ) < (2 : ℚ) ^ (-126 : ℤ) * 2 ^ (149 : ℕ) := by
            apply mul_lt_mul_of_pos_right (hup.trans_le h2)
            positivity
          calc |q| * 2 ^ (149 : ℕ) < (2 : ℚ) ^ (-126 : ℤ) * 2 ^ (149 : ℕ) := h3
            _ = ((2 ^ 23 : ℕ) : ℚ) := by
                rw [show ((2 : ℚ) ^ (149 : ℕ)) = (2 : ℚ) ^ ((149 : ℕ) : ℤ) by
                  rw [zpow_natCast]]
                rw [← zpow_add₀ (by norm_num : (2 : ℚ) ≠ 0)]
                norm_num
        have hm := roundNearestEven_toNat_le _ _ hbound
        omega
      · simp only [hsub, if_false]
        have hmb : |q| * (2 : ℚ) ^ (23 - ratLog2 |q|) < ((2 ^ 24 : ℕ) : ℚ) := by
          have h3 : |q| * (2 : ℚ) ^ (23 - ratLog2 |q|) <
              (2 : ℚ) ^ (ratLog2 |q| + 1) * (2 : ℚ) ^ (23 - ratLog2 |q|) := by
            apply mul_lt_mul_of_pos_right hup
            positivity
          calc |q| * (2 : ℚ) ^ (23 - ratLog2 |q|) <
              (2 : ℚ) ^ (ratLog2 |q| + 1) * (2 : ℚ) ^ (23 - ratLog2 |q|) := h3
            _ = ((2 ^ 24 : ℕ) : ℚ) := by
                rw [← zpow_add₀ (by norm_num : (2 : ℚ) ≠ 0)]
                rw [show (ratLog2 |q| + 1 + (23 - ratLog2 |q|)) = (24 : ℤ) by ring]
                norm_num
        have hm := roundNearestEven_toNat_le _ _ hmb
        by_cases hcarry :
            (roundNearestEven (|q| * (2 : ℚ) ^ (23 - ratLog2 |q|))).toNat = 2 ^ 24
        · simp only [hcarry, if_true]
          by_cases hov : 128 ≤ ratLog2 |q| + 1
          · simp only [hov, if_true]
            omega
          · simp only [hov, if_false]
            have h254 : (ratLog2 |q| + 1 + 127).toNat ≤ 254 := by omega
            omega
        · simp only [hcarry, if_false]
          have h254 : (ratLog2 |q| + 127).toNat ≤ 254 := by omega
          omega

/-- Little-endian recomposition undoes the 4-byte layout of a word list of
32-bit values. -/
theorem bytesToWordsLE_flatMap :
    ∀ ws : List Nat, (∀ w ∈ ws, w < 2 ^ 32) →
      bytesToWordsLE (ws.flatMap wordToBytesLE) = ws := by
  intro ws
  induction ws with
  | nil => intro _; rfl
  | cons w rest ih =>
    intro hb
    have hw : w < 2 ^ 32 := hb w (List.mem_cons_self _ _)
    have hrest := ih (fun x hx => hb x (List.mem_cons_of_mem _ hx))
    rw [List.flatMap_cons, wordToBytesLE]
    simp only [List.cons_append, List.nil_append]
    rw [bytesToWordsLE, hrest]
    congr 1
    omega

/-- Serialized payload length: four bytes per dimension. -/
theorem serializeEmbedding_length (v : List ℚ) :
    (serializeEmbedding v).length = 4 * v.length := by
  induction v with
  | nil => rfl
  | cons x rest ih =>
    simp only [serializeEmbedding, List.map_cons, List.flatMap_cons] at *
    simp [wordToBytesLE, ih]
    omega

/-- C9: the embedding byte layout round-trips. Serializing an embedding
vector produces the packed little-endian binary32 patterns of its
dimensions in order, four bytes per dimension, hence 1536 bytes at
dimension 384, and reconstructing the payload as little-endian 32-bit
floats recovers the vector with every component rounded to 32-bit
precision. -/
theorem embedding_layout_roundtrip (v : List ℚ) :
    reconstructEmbedding (serializeEmbedding v) = v.map roundF32 ∧
    (serializeEmbedding v).length = 4 * v.length ∧
    (v.length = 384 → (serializeEmbedding v).length = 1536) := by
  refine ⟨?_, serializeEmbedding_length v, ?_⟩
  · rw [reconstructEmbedding, serializeEmbedding,
      bytesToWordsLE_flatMap (v.map encodeF32) ?_, List.map_map]
    · rfl
    · intro w hw
      rcases List.mem_map.mp hw with ⟨x, _, hx⟩
      rw [← hx]
      exact encodeF32_lt x
  · intro h384
    rw [serializeEmbedding_length, h384]

/-- Witness for the C9 round-trip at dimension 384: the all-zero embedding
vector of dimension 384 serializes to exactly 1536 bytes. -/
theorem embedding_layout_roundtrip_witness :
    (List.replicate 384 (0 : ℚ)).length = 384 ∧
    (serializeEmbedding (List.replicate 384 (0 : ℚ))).length = 1536 :=
  ⟨by rw [List.length_replicate],
    (embedding_layout_roundtrip (List.replicate 384 (0 : ℚ))).2.2
      (by rw [List.length_replicate])⟩

set_option maxRecDepth 40000 in
/-- Sanity check of the binary32 codec against the IEEE-754 values: one
tenth rounds to the binary32 value 13421773 over 2 to the 27. -/
theorem roundF32_tenth : roundF32 (1 / 10) = 13421773 / 134217728 := by decide

set_option maxRecDepth 40000 in
/-- Sanity check of the binary32 codec: one half is exactly representable
and survives the round trip unchanged. -/
theorem roundF32_half : roundF32 (1 / 2) = 1 / 2 := by decide

set_option maxRecDepth 40000 in
/-- Sanity check of the binary32 codec: the bit pattern of one is the
IEEE-754 pattern 0x3f800000. -/
theorem encodeF32_one : encodeF32 1 = 0x3f800000 := by decide

/-- C10: the claim states that for every input text and all parameters with
0 < overlap < chunk length the Fragmenter terminates with a finite chunk
list. The code does not: on loopText with chunk length 10 and overlap 5 the
loop reaches start index -4, emits the chunk a, and returns to start index
-4, forever. This theorem shows the run fails for every amount of fuel. -/
theorem chunkText_nontermination :
    ∀ fuel : Nat, chunkText fuel loopText 10 5 = none := by
  intro fuel
  cases fuel with
  | zero => rfl
  | succ n =>
    have hlong : ¬ ((loopText.length : Int) ≤ 10) := by decide
    rw [chunkText, if_neg hlong, chunkLoop_loopText_start]
    exact chunkLoop_loopText_diverges n _

/-- C6 (amended): between consecutive emitted chunks the Fragmenter moves
the window start to the previous emitted end minus the overlap; the advance
equals chunk length minus overlap only when that window end was not backed
off to a space. -/
theorem chunkText_advance_spec (fuel : Nat) (text : List Char)
    (chunkSize overlap : Int) (ws : List (Int × Int))
    (h : chunkWindows fuel text chunkSize overlap = some ws)
    (i : Nat) (hi : i + 1 < ws.length) :
    (ws.get ⟨i + 1, hi⟩).1 = (ws.get ⟨i, Nat.lt_of_succ_lt hi⟩).2 - overlap ∧
    ((ws.get ⟨i, Nat.lt_of_succ_lt hi⟩).2 =
        (ws.get ⟨i, Nat.lt_of_succ_lt hi⟩).1 + chunkSize →
      (ws.get ⟨i + 1, hi⟩).1 - (ws.get ⟨i, Nat.lt_of_succ_lt hi⟩).1 =
        chunkSize - overlap) := by
  have hch := chunkWindowsLoop_chained text chunkSize overlap fuel 0 ws h
  have hlink := chained_consecutive overlap ws 0 hch i hi
  refine ⟨hlink, fun hnb => ?_⟩
  rw [hlink, hnb]
  ring

set_option linter.unnecessarySimpa false in
/-- Witness for the amended C6 theorem at a concrete backoff-free step: the
third window of backoffText starts at the second window's end minus the
overlap. -/
theorem chunkText_advance_spec_witness :
    chunkWindows 40 backoffText 10 2 = some [(0, 5), (3, 11), (9, 19)] ∧
    ((3 : Int) = 5 - 2 ∧ ((5 : Int) = 0 + 10 → (3 : Int) - 0 = 10 - 2)) :=
  ⟨by decide, by
    have h := chunkText_advance_spec 40 backoffText 10 2
      [(0, 5), (3, 11), (9, 19)] (by decide) 0 (by decide)
    simpa using h⟩

/-- C6 counterexample: backoffText is longer than the chunk length 10, its
first window is backed off to the space at index 5, and the following start
index is 3, an advance of 3 rather than chunk length minus overlap, which
is 8; so the claim that the start always advances by chunk length minus
overlap, including after a backoff, is false on this input. -/
theorem chunkText_advance_counterexample :
    (backoffText.length : Int) > 10 ∧
    chunkWindows 40 backoffText 10 2 = some [(0, 5), (3, 11), (9, 19)] ∧
    chunkText 40 backoffText 10 2 =
      some ["hello".toList, "lo world".toList, "ld foo".toList] ∧
    ¬ ((3 : Int) - 0 = 10 - 2) := by
  exact ⟨by decide, by decide, by decide, by decide⟩

set_option maxRecDepth 40000 in
/-- SHA-256 test vector: the digest of the empty message. -/
theorem sha256_empty_vector :
    sha256hex [] =
      "e3b0c44298fc1c149afbf4c8996fb92427ae41e4649b934ca495991b7852b855".toList := by
  decide

set_option maxRecDepth 40000 in
/-- SHA-256 test vector: the digest of abc. -/
theorem sha256_abc_vector :
    sha256hex "abc".toList =
      "ba7816bf8f01cfea414140de5dae2223b00361a396177a9cb410ff61f20015ad".toList := by
  decide

/-- C7 counterexample: on a store holding one conversation with one
exchange, Reset leaves both rows in place, so the claim that after Reset
the conversations and exchanges tables are empty is false. -/
theorem reset_counterexample :
    (resetDatabaseM resetExampleStore).conversations ≠ [] ∧
    (resetDatabaseM resetExampleStore).exchanges ≠ [] := by
  exact ⟨by decide, by decide⟩

/-- C7 (amended): Reset empties the files, chunks and lexical shadow
tables and clears the autoincrement counters of files and chunks, so a
file inserted afterwards receives identifier 1 again; the conversations
and exchanges tables are untouched. Space reclamation is the VACUUM
statement, which changes no table content. -/
theorem reset_spec (db : Store) (p h : List Char) :
    (resetDatabaseM db).files = [] ∧
    (resetDatabaseM db).chunks = [] ∧
    (resetDatabaseM db).chunksFts = [] ∧
    (resetDatabaseM db).seqFiles = 0 ∧
    (resetDatabaseM db).seqChunks = 0 ∧
    (resetDatabaseM db).conversations = db.conversations ∧
    (resetDatabaseM db).exchanges = db.exchanges ∧
    (insertFileM (resetDatabaseM db) p h).2 = 1 :=
  ⟨rfl, rfl, rfl, rfl, rfl, rfl, rfl, rfl⟩

/-- C1 (amended): the fingerprint compared against the stored Conversation
row is the SHA-256 of the raw artifact file content, not the canonical
payload hash; the artifact is skipped exactly when a stored row exists
whose hash equals that raw-content digest, and a skip writes nothing. -/
theorem conversationFingerprint_spec (db : Store) (content : List Char)
    (parsed : ParsedConversation) :
    ((indexConversationFileM db content parsed).2 = false ↔
      ∃ row, getConversationM db parsed.conversation.id = some row ∧
        row.hash = computeConversationFileHashM content) ∧
    ((indexConversationFileM db content parsed).2 = false →
      (indexConversationFileM db content parsed).1 = db) := by
  cases hg : getConversationM db parsed.conversation.id with
  | none => simp [indexConversationFileM, hg]
  | some row =>
    by_cases hh : row.hash = computeConversationFileHashM content
    · simp [indexConversationFileM, hg, hh]
    · simp [indexConversationFileM, hg, hh]

set_option maxRecDepth 100000 in
/-- Witness for the amended C1 theorem: re-ingesting the byte-identical
artifact is skipped and leaves the store unchanged. -/
theorem conversationFingerprint_spec_witness :
    (indexConversationFileM conversationDbA conversationContentA conversationParsed).2
        = false ∧
    (indexConversationFileM conversationDbA conversationContentA conversationParsed).1
        = conversationDbA :=
  ⟨by decide,
    (conversationFingerprint_spec conversationDbA conversationContentA
      conversationParsed).2 (by decide)⟩

set_option maxRecDepth 100000 in
/-- C1 counterexample: the two artifact versions differ only in a
wall-clock timestamp and parse to the same canonical conversation, yet
re-ingesting the re-export is not skipped, because the compared
fingerprint is the raw-content digest, which moreover differs from the
canonical hash of the parse. -/
theorem conversationFingerprint_counterexample :
    conversationContentA ≠ conversationContentB ∧
    (indexConversationFileM conversationDbA conversationContentB conversationParsed).2
        = true ∧
    computeConversationFileHashM conversationContentB ≠
      computeConversationHashM conversationParsed := by
  exact ⟨by decide, by decide, by decide⟩

/-- Deleting a conversation leaves no row of it and no exchange of it. -/
theorem deleteConversationM_clears (st : Store) (id : List Char) :
    (∀ e ∈ (deleteConversationM st id).exchanges, e.conversationId ≠ id) ∧
    (∀ c ∈ (deleteConversationM st id).conversations, c.id ≠ id) := by
  constructor
  · intro e he
    have := List.mem_filter.mp he
    simpa using this.2
  · intro c hc
    have := List.mem_filter.mp hc
    simpa using this.2

/-- One step of the delete-detection fold removes rows only, so a cleared
identifier stays cleared. -/
theorem conversationDeletePass_step_preserves (filePaths : List (List Char))
    (id : List Char) (st : Store) (conv : ConvRow)
    (h : (∀ e ∈ st.exchanges, e.conversationId ≠ id) ∧
      (∀ c ∈ st.conversations, c.id ≠ id)) :
    (∀ e ∈ (if conv.archivePath ≠ [] ∧ conv.archivePath ∉ filePaths then
        deleteConversationM st conv.id else st).exchanges, e.conversationId ≠ id) ∧
    (∀ c ∈ (if conv.archivePath ≠ [] ∧ conv.archivePath ∉ filePaths then
        deleteConversationM st conv.id else st).conversations, c.id ≠ id) := by
  split
  · constructor
    · intro e he
      exact h.1 e (List.mem_filter.mp he).1
    · intro c hc
      exact h.2 c (List.mem_filter.mp hc).1
  · exact h

/-- The delete-detection fold preserves a cleared identifier. -/
theorem conversationDeletePass_fold_preserves (filePaths : List (List Char))
    (id : List Char) :
    ∀ (l : List ConvRow) (st : Store),
      ((∀ e ∈ st.exchanges, e.conversationId ≠ id) ∧
        (∀ c ∈ st.conversations, c.id ≠ id)) →
      ((∀ e ∈ (l.foldl (fun st conv =>
          if conv.archivePath ≠ [] ∧ conv.archivePath ∉ filePaths then
            deleteConversationM st conv.id
          else st) st).exchanges, e.conversationId ≠ id) ∧
        (∀ c ∈ (l.foldl (fun st conv =>
          if conv.archivePath ≠ [] ∧ conv.archivePath ∉ filePaths then
            deleteConversationM st conv.id
          else st) st).conversations, c.id ≠ id)) := by
  intro l
  induction l with
  | nil => intro st h; exact h
  | cons x xs ih =>
    intro st h
    exact ih _ (conversationDeletePass_step_preserves filePaths id st x h)

/-- Once the fold reaches a conversation matching the deletion condition,
its identifier is cleared in the final state. -/
theorem conversationDeletePass_fold_achieves (filePaths : List (List Char))
    (conv : ConvRow) (hap : conv.archivePath ≠ [])
    (habs : conv.archivePath ∉ filePaths) :
    ∀ (l : List ConvRow) (st : Store), conv ∈ l →
      ((∀ e ∈ (l.foldl (fun st c =>
          if c.archivePath ≠ [] ∧ c.archivePath ∉ filePaths then
            deleteConversationM st c.id
          else st) st).exchanges, e.conversationId ≠ conv.id) ∧
        (∀ c ∈ (l.foldl (fun st c =>
          if c.archivePath ≠ [] ∧ c.archivePath ∉ filePaths then
            deleteConversationM st c.id
          else st) st).conversations, c.id ≠ conv.id)) := by
  intro l
  induction l with
  | nil => intro st hm; exact absurd hm (List.not_mem_nil conv)
  | cons x xs ih =>
    intro st hm
    rcases List.mem_cons.mp hm with heq | htail
    · subst heq
      rw [List.foldl_cons, if_pos ⟨hap, habs⟩]
      exact conversationDeletePass_fold_preserves filePaths conv.id xs _
        (deleteConversationM_clears st conv.id)
    · exact ih _ htail

/-- C3: every conversation removed by the delete-detection of the
conversation indexer (a copilot row whose non-empty archive pointer is
absent from the current artifact list) is gone after the pass, together
with every exchange owned by it: the delete statement cascades into
exchanges inside the same transaction. -/
theorem conversationDelete_cascade (db : Store) (filePaths : List (List Char))
    (conv : ConvRow) (hmem : conv ∈ db.conversations)
    (hsrc : conv.source = "copilot".toList)
    (hap : conv.archivePath ≠ []) (habs : conv.archivePath ∉ filePaths) :
    (∀ e ∈ (conversationDeletePass db filePaths).exchanges,
      e.conversationId ≠ conv.id) ∧
    (∀ c ∈ (conversationDeletePass db filePaths).conversations,
      c.id ≠ conv.id) := by
  have hsnap : conv ∈ getAllConversationsBySourceM db "copilot".toList := by
    rw [getAllConversationsBySourceM]
    exact List.mem_filter.mpr ⟨hmem, by simp [hsrc]⟩
  exact conversationDeletePass_fold_achieves filePaths conv hap habs _ db hsnap

/-- Witness for C3 on a concrete store: the single copilot conversation,
absent from the empty artifact list, is pruned with its exchange. -/
theorem conversationDelete_cascade_witness :
    (⟨"c1".toList, "copilot".toList, "c1".toList, "2024-01-01".toList,
      "c1.jsonl".toList, 1, "h1".toList⟩ : ConvRow) ∈
        resetExampleStore.conversations ∧
    ((∀ e ∈ (conversationDeletePass resetExampleStore []).exchanges,
        e.conversationId ≠ "c1".toList) ∧
      (∀ c ∈ (conversationDeletePass resetExampleStore []).conversations,
        c.id ≠ "c1".toList)) :=
  ⟨by decide,
    conversationDelete_cascade resetExampleStore []
      ⟨"c1".toList, "copilot".toList, "c1".toList, "2024-01-01".toList,
        "c1.jsonl".toList, 1, "h1".toList⟩
      (by decide) (by decide) (by decide) (by decide)⟩

/-- Stable insertion permutes: the inserted element joins the list. -/
theorem jsSortInsert_perm {α : Type} (lt : α → α → Bool) (x : α) :
    ∀ l : List α, (jsSortInsert lt x l).Perm (x :: l) := by
  intro l
  induction l with
  | nil => exact List.Perm.refl _
  | cons y ys ih =>
    rw [jsSortInsert]
    split
    · exact List.Perm.refl _
    · exact (List.Perm.cons y ih).trans (List.Perm.swap x y ys)

/-- The sort fold permutes the processed elements onto the accumulator. -/
theorem jsSort_fold_perm {α : Type} (lt : α → α → Bool) :
    ∀ (l acc : List α),
      (l.foldl (fun acc x => jsSortInsert lt x acc) acc).Perm (acc ++ l) := by
  intro l
  induction l with
  | nil => intro acc; simp
  | cons x xs ih =>
    intro acc
    rw [List.foldl_cons]
    exact (ih _).trans
      (((jsSortInsert_perm lt x acc).append_right xs).trans List.perm_middle.symm)

/-- The sort model is a permutation. -/
theorem jsSort_perm {α : Type} (lt : α → α → Bool) (l : List α) :
    (jsSort lt l).Perm l := by
  simpa using jsSort_fold_perm lt l []

/-- A dot product against an all-zero vector vanishes. -/
theorem dotProduct_zero_right :
    ∀ (a b : List ℚ), (∀ x ∈ b, x = 0) → dotProduct a b = 0 := by
  intro a
  induction a with
  | nil => intro b _; rfl
  | cons x xs ih =>
    intro b hz
    cases b with
    | nil => rfl
    | cons y ys =>
      have hy : y = 0 := hz y (List.mem_cons_self _ _)
      have hrest := ih ys (fun z hzz => hz z (List.mem_cons_of_mem _ hzz))
      simp only [dotProduct, List.zip_cons_cons, List.map_cons, List.sum_cons, hy,
        mul_zero]
      simpa [dotProduct] using hrest

/-- The square norm of an all-zero vector vanishes. -/
theorem sqNorm_zero :
    ∀ (b : List ℚ), (∀ x ∈ b, x = 0) → sqNorm b = 0 := by
  intro b
  induction b with
  | nil => intro _; rfl
  | cons y ys ih =>
    intro hz
    have hy : y = 0 := hz y (List.mem_cons_self _ _)
    have hrest := ih (fun z hzz => hz z (List.mem_cons_of_mem _ hzz))
    simp only [sqNorm, List.map_cons, List.sum_cons, hy, mul_zero]
    simpa [sqNorm] using hrest

/-- The square root model sends zero to zero. -/
theorem ratSqrt_zero : ratSqrt 0 = 0 := by decide

/-- Cosine similarity against an all-zero stored vector is NaN: both the
dot product and the product of the norms are zero, and zero over zero is
NaN. -/
theorem cosineSimilarity_zero_right (a b : List ℚ) (hz : ∀ x ∈ b, x = 0) :
    cosineSimilarity a b = JsNum.nan := by
  rw [cosineSimilarity]
  split
  · rfl
  · have hdot : dotProduct a b = 0 := dotProduct_zero_right a b hz
    have hnb : sqNorm (b.take a.length) = 0 :=
      sqNorm_zero _ (fun x hx => hz x (List.mem_of_mem_take hx))
    rw [hdot, hnb, ratSqrt_zero, mul_zero, jdivQ]
    simp

/-- C8 (amended): the Vector Ranker does not exclude zero-norm fragments.
A stored fragment whose embedding decodes to the zero vector yields an
undefined (NaN) similarity, and when the number of embedded fragments is
within the limit its pair appears among the returned results carrying
that NaN similarity. -/
theorem vectorSearch_zero_norm_included (db : Store) (q : List ℚ) (lim : Nat)
    (c : ChunkRow) (bs : List Nat) (hc : c ∈ db.chunks)
    (hemb : c.embedding = some bs)
    (hzero : ∀ x ∈ reconstructEmbedding bs, x = 0)
    (hlim : (db.chunks.filterMap (fun c => c.embedding.map
      (fun bs => (c.id, reconstructEmbedding bs)))).length ≤ lim) :
    (c.id, JsNum.nan) ∈ vectorSearchM db q lim := by
  rw [vectorSearchM]
  have hmem1 : (c.id, reconstructEmbedding bs) ∈ db.chunks.filterMap
      (fun c => c.embedding.map (fun bs => (c.id, reconstructEmbedding bs))) :=
    List.mem_filterMap.mpr ⟨c, hc, by rw [hemb]; rfl⟩
  have hmem2 : (c.id, JsNum.nan) ∈ (db.chunks.filterMap
      (fun c => c.embedding.map (fun bs => (c.id, reconstructEmbedding bs)))).map
        (fun p => (p.1, cosineSimilarity q p.2)) := by
    have h := List.mem_map_of_mem (fun p => (p.1, cosineSimilarity q p.2)) hmem1
    have h2 : (c.id, cosineSimilarity q (reconstructEmbedding bs)) ∈
        (db.chunks.filterMap
          (fun c => c.embedding.map (fun bs => (c.id, reconstructEmbedding bs)))).map
            (fun p => (p.1, cosineSimilarity q p.2)) := h
    rw [cosineSimilarity_zero_right q _ hzero] at h2
    exact h2
  have hperm := jsSort_perm vsLt ((db.chunks.filterMap
      (fun c => c.embedding.map (fun bs => (c.id, reconstructEmbedding bs)))).map
        (fun p => (p.1, cosineSimilarity q p.2)))
  have hlen : (jsSort vsLt ((db.chunks.filterMap
      (fun c => c.embedding.map (fun bs => (c.id, reconstructEmbedding bs)))).map
        (fun p => (p.1, cosineSimilarity q p.2)))).length ≤ lim := by
    rw [hperm.length_eq, List.length_map]
    exact hlim
  rw [List.take_of_length_le hlen]
  exact hperm.mem_iff.mpr hmem2

set_option maxRecDepth 40000 in
/-- Witness for the amended C8 theorem at the concrete zero-embedding
store: the zero-norm fragment is returned with NaN similarity. -/
theorem vectorSearch_zero_norm_included_witness :
    (∀ x ∈ reconstructEmbedding (serializeEmbedding [0, 0, 0]), x = 0) ∧
    ((1 : Nat), JsNum.nan) ∈ vectorSearchM zeroEmbStore [1, 0, 0] 10 :=
  ⟨by decide,
    vectorSearch_zero_norm_included zeroEmbStore [1, 0, 0] 10
      ⟨1, 1, 0, "text".toList, "text".toList, some (serializeEmbedding [0, 0, 0])⟩
      (serializeEmbedding [0, 0, 0]) (by decide) rfl (by decide) (by decide)⟩

set_option maxRecDepth 40000 in
/-- C8 counterexample: a stored fragment whose embedding is the zero
vector of dimension three is returned by the Vector Ranker with NaN
similarity, so the claim that no pair with undefined similarity ever
appears among the returned pairs is false. -/
theorem vectorSearch_nan_counterexample :
    vectorSearchM zeroEmbStore [1, 0, 0] 10 = [(1, JsNum.nan)] ∧
    sqNorm (reconstructEmbedding (serializeEmbedding [0, 0, 0])) = 0 := by
  exact ⟨by decide, by decide⟩

/-- Lookup after update. -/
theorem mapGetD_mapSet :
    ∀ (m : List (Nat × ℚ)) (i j : Nat) (v : ℚ),
      mapGetD (mapSet m i v) j = if j = i then v else mapGetD m j := by
  intro m
  induction m with
  | nil =>
    intro i j v
    by_cases h : j = i
    · subst h
      simp [mapSet, mapGetD, List.find?]
    · have h2 : ¬ i = j := fun hh => h hh.symm
      simp [mapSet, mapGetD, List.find?, h, h2]
  | cons p ps ih =>
    intro i j v
    rw [mapSet]
    by_cases hpi : p.1 = i
    · by_cases hji : j = i
      · subst hji
        simp [hpi, mapGetD, List.find?]
      · simp only [hpi, if_true]
        rw [mapGetD, mapGetD]
        simp only [List.find?]
        have h2 : ¬ i = j := fun hh => hji hh.symm
        have h3 : ¬ p.1 = j := by rw [hpi]; exact h2
        simp [h2, h3, hji]
    · simp only [hpi, if_false]
      by_cases hpj : p.1 = j
      · have hji : ¬ j = i := by rw [← hpj]; exact hpi
        rw [mapGetD, mapGetD]
        simp [List.find?, hpj, hji]
      · rw [mapGetD, mapGetD]
        simp only [List.find?]
        rw [show (decide (p.1 = j)) = false by simp [hpj]]
        simp only [Bool.false_eq_true, if_false]
        have := ih i j v
        rw [mapGetD, mapGetD] at this
        by_cases hji : j = i <;> simp [hji] at this ⊢ <;> exact this

/-- Keys after update. -/
theorem mapSet_keys :
    ∀ (m : List (Nat × ℚ)) (i : Nat) (v : ℚ),
      (mapSet m i v).map Prod.fst =
        if i ∈ m.map Prod.fst then m.map Prod.fst else m.map Prod.fst ++ [i] := by
  intro m
  induction m with
  | nil => intro i v; simp [mapSet]
  | cons p ps ih =>
    intro i v
    rw [mapSet]
    by_cases hpi : p.1 = i
    · simp [hpi]
    · simp only [hpi, if_false, List.map_cons]
      rw [ih i v]
      by_cases hmem : i ∈ ps.map Prod.fst
      · simp [hmem, Ne.symm hpi]
      · simp [hmem, Ne.symm hpi, hpi]

/-- Key set nodup preserved by update. -/
theorem mapSet_keys_nodup (m : List (Nat × ℚ)) (i : Nat) (v : ℚ)
    (h : (m.map Prod.fst).Nodup) : ((mapSet m i v).map Prod.fst).Nodup := by
  rw [mapSet_keys]
  split
  · exact h
  · rename_i hni
    rw [List.nodup_append]
    refine ⟨h, List.nodup_singleton i, ?_⟩
    intro a ha hb
    simp only [List.mem_singleton] at hb
    subst hb
    exact hni ha

/-- A pair of a nodup-key map is retrieved by lookup. -/
theorem mapGetD_of_mem (m : List (Nat × ℚ)) (p : Nat × ℚ)
    (hnd : (m.map Prod.fst).Nodup) (hmem : p ∈ m) : mapGetD m p.1 = p.2 := by
  induction m with
  | nil => cases hmem
  | cons q qs ih =>
    rcases List.mem_cons.mp hmem with heq | htail
    · subst heq
      simp [mapGetD, List.find?]
    · have hqp : ¬ q.1 = p.1 := by
        intro hq
        have : p.1 ∈ qs.map Prod.fst := List.mem_map_of_mem Prod.fst htail
        rw [List.map_cons, List.nodup_cons] at hnd
        exact hnd.1 (hq ▸ this)
      have := ih (by rw [List.map_cons, List.nodup_cons] at hnd; exact hnd.2) htail
      rw [mapGetD] at this ⊢
      simp only [List.find?, hqp]
      simpa [hqp] using this

/-- A search that can never succeed returns none from any start index. -/
theorem findIdx?_none_of_all {α : Type} (p : α → Bool) (xs : List α)
    (h : ∀ x ∈ xs, p x = false) : ∀ n : Nat, xs.findIdx? p n = none := by
  intro n
  induction n with
  | zero => exact List.findIdx?_eq_none_iff.mpr h
  | succ n ih =>
    rw [List.findIdx?_succ, ih]
    rfl

/-- Key membership after update. -/
theorem mapSet_keys_mem (m : List (Nat × ℚ)) (i : Nat) (v : ℚ) (j : Nat) :
    j ∈ (mapSet m i v).map Prod.fst ↔ j ∈ m.map Prod.fst ∨ j = i := by
  rw [mapSet_keys]
  split
  · rename_i hmem
    constructor
    · exact Or.inl
    · rintro (h | h)
      · exact h
      · exact h ▸ hmem
  · simp

/-- Lookup after accumulating one ranked list, enumerated from offset n:
the identifier gains exactly its reciprocal-rank term. -/
theorem rrfAccumOne_fold_get (k : ℚ) :
    ∀ (ids : List Nat) (n : Nat) (m : List (Nat × ℚ)) (j : Nat), ids.Nodup →
      mapGetD (foldIdx
          (fun m r i => mapSet m i (mapGetD m i + 1 / (k + (r : ℚ) + 1))) m n ids) j =
        mapGetD m j + rrfListTerm k ids n j := by
  intro ids
  induction ids with
  | nil =>
    intro n m j _
    simp [foldIdx, rrfListTerm]
  | cons x xs ih =>
    intro n m j hnd
    have hnd2 : xs.Nodup := (List.nodup_cons.mp hnd).2
    have hx : x ∉ xs := (List.nodup_cons.mp hnd).1
    rw [foldIdx, ih (n + 1) _ j hnd2, mapGetD_mapSet]
    by_cases hjx : j = x
    · subst hjx
      have hxs : xs.findIdx? (fun y => y = j) (n + 1) = none := by
        apply findIdx?_none_of_all
        intro y hy
        simp only [decide_eq_false_iff_not]
        intro heq
        exact hx (heq ▸ hy)
      rw [if_pos rfl, rrfListTerm, rrfListTerm]
      rw [List.findIdx?_cons, if_pos (by simp), hxs]
      ring
    · have hne : (decide (x = j)) = false := by
        simp only [decide_eq_false_iff_not]
        intro heq
        exact hjx heq.symm
      rw [if_neg hjx, rrfListTerm, rrfListTerm, List.findIdx?_cons, hne]
      simp

/-- Key membership after accumulating one ranked list. -/
theorem rrfAccumOne_fold_mem (k : ℚ) :
    ∀ (ids : List Nat) (n : Nat) (m : List (Nat × ℚ)) (j : Nat),
      (j ∈ (foldIdx
          (fun m r i => mapSet m i (mapGetD m i + 1 / (k + (r : ℚ) + 1))) m n ids).map
            Prod.fst ↔
        j ∈ m.map Prod.fst ∨ j ∈ ids) := by
  intro ids
  induction ids with
  | nil =>
    intro n m j
    simp [foldIdx]
  | cons x xs ih =>
    intro n m j
    rw [foldIdx, ih]
    rw [mapSet_keys_mem]
    constructor
    · rintro ((h | h) | h)
      · exact Or.inl h
      · exact Or.inr (h ▸ List.mem_cons_self x xs)
      · exact Or.inr (List.mem_cons_of_mem x h)
    · rintro (h | h)
      · exact Or.inl (Or.inl h)
      · rcases List.mem_cons.mp h with h2 | h2
        · exact Or.inl (Or.inr h2)
        · exact Or.inr h2

/-- Key nodup preserved by accumulating one ranked list. -/
theorem rrfAccumOne_fold_nodup (k : ℚ) :
    ∀ (ids : List Nat) (n : Nat) (m : List (Nat × ℚ)),
      (m.map Prod.fst).Nodup →
      ((foldIdx
          (fun m r i => mapSet m i (mapGetD m i + 1 / (k + (r : ℚ) + 1))) m n ids).map
            Prod.fst).Nodup := by
  intro ids
  induction ids with
  | nil => intro n m h; exact h
  | cons x xs ih =>
    intro n m h
    rw [foldIdx]
    exact ih (n + 1) _ (mapSet_keys_nodup m x _ h)

/-- Lookup after accumulating all ranked lists: the sum of the per-list
reciprocal-rank terms. -/
theorem rrfAccum_fold_get (k : ℚ) :
    ∀ (lists : List (List Nat)) (m : List (Nat × ℚ)) (j : Nat),
      (∀ l ∈ lists, l.Nodup) → (m.map Prod.fst).Nodup →
      mapGetD (lists.foldl (rrfAccumOne k) m) j =
        mapGetD m j + (lists.map (fun l => rrfListTerm k l 0 j)).sum := by
  intro lists
  induction lists with
  | nil =>
    intro m j _ _
    simp
  | cons l ls ih =>
    intro m j hnd hm
    rw [List.foldl_cons]
    have h1 : rrfAccumOne k m l =
        foldIdx (fun m r i => mapSet m i (mapGetD m i + 1 / (k + (r : ℚ) + 1))) m 0 l :=
      rfl
    rw [ih _ j (fun x hx => hnd x (List.mem_cons_of_mem _ hx))
      (by rw [h1]; exact rrfAccumOne_fold_nodup k l 0 m hm)]
    rw [h1, rrfAccumOne_fold_get k l 0 m j (hnd l (List.mem_cons_self _ _))]
    rw [List.map_cons, List.sum_cons]
    ring

/-- Lookup in the final accumulator is the reference score. -/
theorem rrfAccum_get (lists : List (List Nat)) (k : ℚ) (j : Nat)
    (hnd : ∀ l ∈ lists, l.Nodup) :
    mapGetD (rrfAccum lists k) j = rrfSpecScore lists k j := by
  rw [rrfAccum, rrfAccum_fold_get k lists [] j hnd (by simp), rrfSpecScore]
  simp [mapGetD]

/-- Key membership in the final accumulator. -/
theorem rrfAccum_fold_mem (k : ℚ) :
    ∀ (lists : List (List Nat)) (m : List (Nat × ℚ)) (j : Nat),
      (j ∈ (lists.foldl (rrfAccumOne k) m).map Prod.fst ↔
        j ∈ m.map Prod.fst ∨ ∃ l ∈ lists, j ∈ l) := by
  intro lists
  induction lists with
  | nil =>
    intro m j
    simp
  | cons l ls ih =>
    intro m j
    rw [List.foldl_cons, ih]
    have h1 : rrfAccumOne k m l =
        foldIdx (fun m r i => mapSet m i (mapGetD m i + 1 / (k + (r : ℚ) + 1))) m 0 l :=
      rfl
    rw [h1, rrfAccumOne_fold_mem]
    constructor
    · rintro ((h | h) | ⟨w, hw, hjw⟩)
      · exact Or.inl h
      · exact Or.inr ⟨l, List.mem_cons_self _ _, h⟩
      · exact Or.inr ⟨w, List.mem_cons_of_mem _ hw, hjw⟩
    · rintro (h | ⟨w, hw, hjw⟩)
      · exact Or.inl (Or.inl h)
      · rcases List.mem_cons.mp hw with h2 | h2
        · exact Or.inl (Or.inr (h2 ▸ hjw))
        · exact Or.inr ⟨w, h2, hjw⟩

/-- Key nodup of the final accumulator. -/
theorem rrfAccum_nodup (lists : List (List Nat)) (k : ℚ) :
    ((rrfAccum lists k).map Prod.fst).Nodup := by
  rw [rrfAccum]
  have h : ∀ (ls : List (List Nat)) (m : List (Nat × ℚ)),
      (m.map Prod.fst).Nodup → ((ls.foldl (rrfAccumOne k) m).map Prod.fst).Nodup := by
    intro ls
    induction ls with
    | nil => intro m h; exact h
    | cons l ls2 ih =>
      intro m hm
      rw [List.foldl_cons]
      exact ih _ (rrfAccumOne_fold_nodup k l 0 m hm)
  exact h lists [] (by simp)

/-- Stable insertion preserves the descending order. -/
theorem jsSortInsert_pairwise (x : RankedResult) :
    ∀ l : List RankedResult, l.Pairwise scoreGe →
      (jsSortInsert rrfLt x l).Pairwise scoreGe := by
  intro l
  induction l with
  | nil => intro _; exact List.pairwise_singleton _ _
  | cons y ys ih =>
    intro h
    have h1 := List.pairwise_cons.mp h
    rw [jsSortInsert]
    split
    · rename_i hlt
      have hxy : y.score < x.score := by
        have := of_decide_eq_true hlt
        linarith
      refine List.pairwise_cons.mpr ⟨?_, h⟩
      intro b hb
      rcases List.mem_cons.mp hb with rfl | hbys
      · exact le_of_lt hxy
      · exact (h1.1 b hbys).trans (le_of_lt hxy)
    · rename_i hnlt
      have hxy : x.score ≤ y.score := by
        have := of_decide_eq_false (Bool.not_eq_true _ ▸ hnlt)
        linarith
      refine List.pairwise_cons.mpr ⟨?_, ih h1.2⟩
      intro b hb
      have hb2 := (jsSortInsert_perm rrfLt x ys).mem_iff.mp hb
      rcases List.mem_cons.mp hb2 with rfl | hbys
      · exact hxy
      · exact h1.1 b hbys

/-- The sort fold keeps the accumulator ordered. -/
theorem jsSort_fold_pairwise :
    ∀ (l acc : List RankedResult), acc.Pairwise scoreGe →
      (l.foldl (fun acc x => jsSortInsert rrfLt x acc) acc).Pairwise scoreGe := by
  intro l
  induction l with
  | nil => intro acc h; exact h
  | cons x xs ih =>
    intro acc h
    rw [List.foldl_cons]
    exact ih _ (jsSortInsert_pairwise x acc h)

/-- The sorted output is ordered by score descending. -/
theorem jsSort_pairwise (l : List RankedResult) :
    (jsSort rrfLt l).Pairwise scoreGe :=
  jsSort_fold_pairwise l [] List.Pairwise.nil

/-- Inserting into an ordered list places the new element directly after
the existing elements of equal score. -/
theorem jsSortInsert_filter (s : ℚ) (x : RankedResult) :
    ∀ l : List RankedResult, l.Pairwise scoreGe →
      (jsSortInsert rrfLt x l).filter (fun z => z.score = s) =
        (if x.score = s then l.filter (fun z => z.score = s) ++ [x]
         else l.filter (fun z => z.score = s)) := by
  intro l
  induction l with
  | nil =>
    intro _
    by_cases hx : x.score = s <;> simp [jsSortInsert, hx]
  | cons y ys ih =>
    intro h
    have h1 := List.pairwise_cons.mp h
    rw [jsSortInsert]
    split
    · rename_i hlt
      have hxy : y.score < x.score := by
        have := of_decide_eq_true hlt
        linarith
      by_cases hx : x.score = s
      · have hempty : (y :: ys).filter (fun z => decide (z.score = s)) = [] := by
          rw [List.filter_eq_nil_iff]
          intro a ha
          simp only [decide_eq_true_eq]
          rcases List.mem_cons.mp ha with rfl | hays
          · intro heq
            have hss : s < s := by
              calc s = a.score := heq.symm
                _ < x.score := hxy
                _ = s := hx
            exact lt_irrefl s hss
          · intro heq
            have hle : a.score ≤ y.score := h1.1 a hays
            have hss : s < s := by
              calc s = a.score := heq.symm
                _ ≤ y.score := hle
                _ < x.score := hxy
                _ = s := hx
            exact lt_irrefl s hss
        rw [List.filter_cons, if_pos (by simp [hx]), hempty, if_pos hx]
        rfl
      · rw [List.filter_cons, if_neg (by simp [hx]), if_neg hx]
    · rename_i hnlt
      rw [List.filter_cons, ih h1.2]
      by_cases hy : y.score = s <;> by_cases hx : x.score = s <;>
        simp [hy, hx, List.filter_cons]

/-- The sort fold appends each matching element after the existing
matching block, so tied entries keep their arrival order. -/
theorem jsSort_fold_filter (s : ℚ) :
    ∀ (l acc : List RankedResult), acc.Pairwise scoreGe →
      (l.foldl (fun acc x => jsSortInsert rrfLt x acc) acc).filter
          (fun z => z.score = s) =
        acc.filter (fun z => z.score = s) ++ l.filter (fun z => z.score = s) := by
  intro l
  induction l with
  | nil =>
    intro acc _
    simp
  | cons x xs ih =>
    intro acc h
    rw [List.foldl_cons, ih _ (jsSortInsert_pairwise x acc h),
      jsSortInsert_filter s x acc h, List.filter_cons]
    by_cases hx : x.score = s
    · rw [if_pos hx, if_pos (by simp [hx])]
      simp
    · rw [if_neg hx, if_neg (by simp [hx])]

/-- Sorting preserves each score class in arrival order. -/
theorem jsSort_filter (s : ℚ) (l : List RankedResult) :
    (jsSort rrfLt l).filter (fun z => z.score = s) =
      l.filter (fun z => z.score = s) := by
  have := jsSort_fold_filter s l [] List.Pairwise.nil
  simpa [jsSort] using this

/-- Key membership in the accumulator is membership in some input list. -/
theorem rrfAccum_mem (lists : List (List Nat)) (k : ℚ) (j : Nat) :
    j ∈ (rrfAccum lists k).map Prod.fst ↔ ∃ l ∈ lists, j ∈ l := by
  rw [rrfAccum, rrfAccum_fold_mem]
  simp

/-- C4 (amended): the Fuser assigns every returned identifier the fused
score equal to the sum over the input lists containing it of
1 / (K + rank + 1), rank its zero-based position there; the returned
identifiers are exactly those of the input lists, each once; the output
is ordered by fused score descending; and every class of tied scores
appears in accumulator insertion order. -/
theorem mergeWithRRF_spec (lists : List (List Nat)) (k : ℚ)
    (hnd : ∀ l ∈ lists, l.Nodup) :
    (∀ r ∈ mergeWithRRF lists k, r.score = rrfSpecScore lists k r.id) ∧
    (∀ i : Nat, (∃ r ∈ mergeWithRRF lists k, r.id = i) ↔ ∃ l ∈ lists, i ∈ l) ∧
    ((mergeWithRRF lists k).map (fun r => r.id)).Nodup ∧
    (mergeWithRRF lists k).Pairwise (fun a b => b.score ≤ a.score) ∧
    (∀ s : ℚ, (mergeWithRRF lists k).filter (fun r => r.score = s) =
      ((rrfAccum lists k).map (fun p => RankedResult.mk p.1 p.2)).filter
        (fun r => r.score = s)) := by
  have hperm := jsSort_perm rrfLt
    ((rrfAccum lists k).map (fun p => RankedResult.mk p.1 p.2))
  refine ⟨?_, ?_, ?_, jsSort_pairwise _, fun s => jsSort_filter s _⟩
  · intro r hr
    have hr2 := hperm.mem_iff.mp hr
    rcases List.mem_map.mp hr2 with ⟨p, hp, hpr⟩
    have hget := mapGetD_of_mem (rrfAccum lists k) p (rrfAccum_nodup lists k) hp
    rw [rrfAccum_get lists k p.1 hnd] at hget
    rw [← hpr]
    exact hget.symm
  · intro i
    constructor
    · rintro ⟨r, hr, hri⟩
      have hr2 := hperm.mem_iff.mp hr
      rcases List.mem_map.mp hr2 with ⟨p, hp, hpr⟩
      have hkey : i ∈ (rrfAccum lists k).map Prod.fst := by
        refine List.mem_map.mpr ⟨p, hp, ?_⟩
        rw [← hri, ← hpr]
      exact (rrfAccum_mem lists k i).mp hkey
    · intro hex
      have hkey := (rrfAccum_mem lists k i).mpr hex
      rcases List.mem_map.mp hkey with ⟨p, hp, hpi⟩
      refine ⟨RankedResult.mk p.1 p.2, ?_, hpi⟩
      exact hperm.mem_iff.mpr (List.mem_map_of_mem _ hp)
  · have hmm : ((mergeWithRRF lists k).map (fun r => r.id)).Perm
        ((rrfAccum lists k).map Prod.fst) := by
      have h2 := hperm.map (fun r => r.id)
      rw [List.map_map] at h2
      exact h2
    exact hmm.nodup_iff.mpr (rrfAccum_nodup lists k)

/-- C4 counterexample: on the single ranked list holding identifier 7 with
K = 60 the fused score is 1 / 61, not 1 / (60 + 0) as the claim computes
for the zero-based rank 0. -/
theorem mergeWithRRF_counterexample :
    mergeWithRRF [[7]] 60 = [⟨7, 1 / 61⟩] ∧ ¬ ((1 : ℚ) / 61 = 1 / (60 + 0)) := by
  exact ⟨by decide, by decide⟩

/-- Witness for the amended C4 theorem on two overlapping ranked lists. -/
theorem mergeWithRRF_spec_witness :
    (∀ l ∈ [[1, 2], [2, 3]], List.Nodup l) ∧
    (∀ r ∈ mergeWithRRF [[1, 2], [2, 3]] 60,
      r.score = rrfSpecScore [[1, 2], [2, 3]] 60 r.id) :=
  ⟨by decide, (mergeWithRRF_spec [[1, 2], [2, 3]] 60 (by decide)).1⟩

/-- Every identifier returned by the vector ranker names an existing
chunk. -/
theorem vectorSearchM_ids (db : Store) (qe : List ℚ) (l : Nat) :
    ∀ p ∈ vectorSearchM db qe l, ∃ c ∈ db.chunks, c.id = p.1 := by
  intro p hp
  rw [vectorSearchM] at hp
  have hp2 := List.mem_of_mem_take hp
  have hp3 := (jsSort_perm vsLt _).mem_iff.mp hp2
  rcases List.mem_map.mp hp3 with ⟨q, hq, hqp⟩
  rcases List.mem_filterMap.mp hq with ⟨c, hc, hcq⟩
  cases hemb : c.embedding with
  | none => rw [hemb] at hcq; cases hcq
  | some bs =>
    rw [hemb] at hcq
    simp only [Option.map_some'] at hcq
    refine ⟨c, hc, ?_⟩
    rw [← hqp]
    injection hcq with hcq2
    rw [← hcq2]

/-- Every identifier of the fused output comes from some input list. -/
theorem mergeWithRRF_id_mem (lists : List (List Nat)) (k : ℚ) :
    ∀ r ∈ mergeWithRRF lists k, ∃ l ∈ lists, r.id ∈ l := by
  intro r hr
  have hr2 := (jsSort_perm rrfLt _).mem_iff.mp hr
  rcases List.mem_map.mp hr2 with ⟨p, hp, hpr⟩
  have hkey : r.id ∈ (rrfAccum lists k).map Prod.fst :=
    List.mem_map.mpr ⟨p, hp, by rw [← hpr]⟩
  exact (rrfAccum_mem lists k r.id).mp hkey

/-- The fused output is ordered by score descending. -/
theorem mergeWithRRF_pairwise (lists : List (List Nat)) (k : ℚ) :
    (mergeWithRRF lists k).Pairwise scoreGe :=
  jsSort_pairwise _

/-- In a descending list every score is at most the head score. -/
theorem pairwise_head_score (l : List RankedResult) (h : l.Pairwise scoreGe)
    (r0 : RankedResult) (hh : l.head? = some r0) :
    ∀ x ∈ l, x.score ≤ r0.score := by
  cases l with
  | nil => cases hh
  | cons a as =>
    injection hh with hh2
    subst hh2
    intro x hx
    rcases List.mem_cons.mp hx with rfl | hxs
    · exact le_refl _
    · exact (List.pairwise_cons.mp h).1 x hxs

/-- In a descending list every score is at least the last score. -/
theorem pairwise_getLast_score :
    ∀ (l : List RankedResult), l.Pairwise scoreGe →
      ∀ (rn : RankedResult), l.getLast? = some rn →
      ∀ x ∈ l, rn.score ≤ x.score := by
  intro l
  induction l with
  | nil => intro _ rn hl; cases hl
  | cons a as ih =>
    intro h rn hl x hx
    cases as with
    | nil =>
      simp only [List.getLast?_singleton, Option.some.injEq] at hl
      subst hl
      simp only [List.mem_singleton] at hx
      subst hx
      exact le_refl _
    | cons b bs =>
      rw [List.getLast?_cons_cons] at hl
      have h1 := List.pairwise_cons.mp h
      rcases List.mem_cons.mp hx with rfl | hxs
      · have hrnmem : rn ∈ b :: bs := List.mem_of_getLast?_eq_some hl
        exact h1.1 rn hrnmem
      · exact ih h1.2 rn hl x hxs

/-- Under total hydration the display scores of hybridSearch are exactly
the normalized scores of the retained entries, in order. -/
theorem hybrid_scores_eq (db : Store) (minS range : ℚ) :
    ∀ (top : List RankedResult),
      (∀ ranked ∈ top, ∃ c ∈ db.chunks, c.id = ranked.id) →
      (∀ c ∈ db.chunks, ∃ f ∈ db.files, f.id = c.fileId) →
      (top.filterMap (hydrateResult db minS range)).map (fun r => r.score) =
        top.map (fun ranked =>
          if 0 < range then (ranked.score - minS) / range else 1) := by
  intro top
  induction top with
  | nil => intro _ _; rfl
  | cons x xs ih =>
    intro hids hfk
    obtain ⟨c, hc, hcid⟩ := hids x (List.mem_cons_self _ _)
    have hsome : (db.chunks.find? (fun cc => cc.id = x.id)).isSome :=
      List.find?_isSome.mpr ⟨c, hc, by simp [hcid]⟩
    cases hfind : db.chunks.find? (fun cc => cc.id = x.id) with
    | none => rw [hfind] at hsome; cases hsome
    | some c0 =>
      have hc0mem := List.mem_of_find?_eq_some hfind
      obtain ⟨f, hf, hfid⟩ := hfk c0 hc0mem
      have hfsome : (db.files.find? (fun ff => ff.id = c0.fileId)).isSome :=
        List.find?_isSome.mpr ⟨f, hf, by simp [hfid]⟩
      cases hffind : db.files.find? (fun ff => ff.id = c0.fileId) with
      | none => rw [hffind] at hfsome; cases hfsome
      | some f0 =>
        have hhyd : hydrateResult db minS range x = some
            { content := c0.content, sourcePath := f0.path,
              score := if 0 < range then (x.score - minS) / range else 1,
              chunkIndex := c0.chunkIndex } := by
          rw [hydrateResult, hfind, Option.some_bind, hffind, Option.map_some']
        rw [List.filterMap_cons, hhyd, List.map_cons, List.map_cons,
          ih (fun y hy => hids y (List.mem_cons_of_mem _ hy)) hfk]

/-- Display-score properties of the hydrated, normalized retained slice,
for a non-empty ordered slice. -/
theorem hybrid_norm_props (db : Store) (t0 : RankedResult) (ts : List RankedResult)
    (htops : (t0 :: ts).Pairwise scoreGe)
    (hids : ∀ ranked ∈ t0 :: ts, ∃ c ∈ db.chunks, c.id = ranked.id)
    (hfk : ∀ c ∈ db.chunks, ∃ f ∈ db.files, f.id = c.fileId) :
    (∀ r ∈ (t0 :: ts).filterMap (hydrateResult db (hybridMinS (t0 :: ts))
        (hybridMaxS (t0 :: ts) - hybridMinS (t0 :: ts))),
      0 ≤ r.score ∧ r.score ≤ 1) ∧
    ((t0 :: ts).filterMap (hydrateResult db (hybridMinS (t0 :: ts))
        (hybridMaxS (t0 :: ts) - hybridMinS (t0 :: ts)))).Pairwise
      (fun a b => b.score ≤ a.score) ∧
    (∀ r, ((t0 :: ts).filterMap (hydrateResult db (hybridMinS (t0 :: ts))
        (hybridMaxS (t0 :: ts) - hybridMinS (t0 :: ts)))).head? = some r →
      r.score = 1) ∧
    ((∀ a ∈ t0 :: ts, ∀ b ∈ t0 :: ts, a.score = b.score) →
      ∀ r ∈ (t0 :: ts).filterMap (hydrateResult db (hybridMinS (t0 :: ts))
        (hybridMaxS (t0 :: ts) - hybridMinS (t0 :: ts))), r.score = 1) := by
  have hscores := hybrid_scores_eq db (hybridMinS (t0 :: ts))
    (hybridMaxS (t0 :: ts) - hybridMinS (t0 :: ts)) (t0 :: ts) hids hfk
  have hmax : hybridMaxS (t0 :: ts) = t0.score := rfl
  obtain ⟨rn, hrn⟩ : ∃ rn, (t0 :: ts).getLast? = some rn := by
    cases hl : (t0 :: ts).getLast? with
    | none => rw [List.getLast?_eq_none_iff] at hl; cases hl
    | some rn => exact ⟨rn, rfl⟩
  have hmin : hybridMinS (t0 :: ts) = rn.score := by
    rw [hybridMinS, hrn]
  have hub := pairwise_head_score (t0 :: ts) htops t0 rfl
  have hlb := pairwise_getLast_score (t0 :: ts) htops rn hrn
  have hnorm_mem : ∀ r ∈ (t0 :: ts).filterMap (hydrateResult db
      (hybridMinS (t0 :: ts)) (hybridMaxS (t0 :: ts) - hybridMinS (t0 :: ts))),
      ∃ ranked ∈ t0 :: ts,
        r.score = if 0 < hybridMaxS (t0 :: ts) - hybridMinS (t0 :: ts) then
          (ranked.score - hybridMinS (t0 :: ts)) /
            (hybridMaxS (t0 :: ts) - hybridMinS (t0 :: ts))
        else 1 := by
    intro r hr
    have h1 := List.mem_map_of_mem (fun r => r.score) hr
    rw [hscores] at h1
    rcases List.mem_map.mp h1 with ⟨ranked, hmem, heq⟩
    exact ⟨ranked, hmem, heq.symm⟩
  have hnorm_bound : ∀ ranked ∈ t0 :: ts,
      0 ≤ (if 0 < hybridMaxS (t0 :: ts) - hybridMinS (t0 :: ts) then
        (ranked.score - hybridMinS (t0 :: ts)) /
          (hybridMaxS (t0 :: ts) - hybridMinS (t0 :: ts))
      else 1) ∧
      (if 0 < hybridMaxS (t0 :: ts) - hybridMinS (t0 :: ts) then
        (ranked.score - hybridMinS (t0 :: ts)) /
          (hybridMaxS (t0 :: ts) - hybridMinS (t0 :: ts))
      else 1) ≤ 1 := by
    intro ranked hmem
    by_cases hr0 : 0 < hybridMaxS (t0 :: ts) - hybridMinS (t0 :: ts)
    · rw [if_pos hr0]
      constructor
      · apply div_nonneg _ (le_of_lt hr0)
        rw [hmin]
        exact sub_nonneg.mpr (hlb ranked hmem)
      · rw [div_le_one hr0, hmax]
        exact sub_le_sub_right (hub ranked hmem) _
    · rw [if_neg hr0]
      exact ⟨zero_le_one, le_refl 1⟩
  refine ⟨?_, ?_, ?_, ?_⟩
  · intro r hr
    rcases hnorm_mem r hr with ⟨ranked, hmem, heq⟩
    rw [heq]
    exact hnorm_bound ranked hmem
  · have hp1 : (((t0 :: ts).filterMap (hydrateResult db (hybridMinS (t0 :: ts))
        (hybridMaxS (t0 :: ts) - hybridMinS (t0 :: ts)))).map
          (fun r => r.score)).Pairwise (fun x y => y ≤ x) := by
      rw [hscores, List.pairwise_map]
      apply htops.imp
      intro a b hab
      by_cases hr0 : 0 < hybridMaxS (t0 :: ts) - hybridMinS (t0 :: ts)
      · rw [if_pos hr0, if_pos hr0]
        have h2 : b.score - hybridMinS (t0 :: ts) ≤
            a.score - hybridMinS (t0 :: ts) := sub_le_sub_right hab _
        gcongr
      · rw [if_neg hr0, if_neg hr0]
    rw [List.pairwise_map] at hp1
    exact hp1
  · intro r hr
    have h1 : (((t0 :: ts).filterMap (hydrateResult db (hybridMinS (t0 :: ts))
        (hybridMaxS (t0 :: ts) - hybridMinS (t0 :: ts)))).map
          (fun r => r.score)).head? = some r.score := by
      rw [List.head?_map, hr, Option.map_some']
    rw [hscores, List.head?_map] at h1
    simp only [List.head?_cons, Option.map_some', Option.some.injEq] at h1
    rw [← h1]
    by_cases hr0 : 0 < hybridMaxS (t0 :: ts) - hybridMinS (t0 :: ts)
    · rw [if_pos hr0]
      rw [hmax]
      exact div_self (ne_of_gt (by rw [hmax] at hr0; exact hr0))
    · rw [if_neg hr0]
  · intro hall r hr
    have heqminmax : t0.score = rn.score :=
      hall t0 (List.mem_cons_self _ _) rn (List.mem_of_getLast?_eq_some hrn)
    have hrange0 : hybridMaxS (t0 :: ts) - hybridMinS (t0 :: ts) = 0 := by
      rw [hmax, hmin, heqminmax, sub_self]
    rcases hnorm_mem r hr with ⟨ranked, hmem, heq⟩
    rw [heq, hrange0]
    simp

/-- C5: for every hybrid-search invocation whose rankers name existing
chunks (BM25 joins the chunks table; the chunks-to-files key is a
foreign key), every display score lies between 0 and 1, display scores
are non-increasing in returned order, a non-empty result list starts with
display score exactly 1, and when all retained fused scores are equal
every display score is 1. -/
theorem hybrid_display_scores (db : Store) (bm25Ids : List Nat) (qe : List ℚ)
    (lim : Nat)
    (hbm : ∀ i ∈ bm25Ids, ∃ c ∈ db.chunks, c.id = i)
    (hfk : ∀ c ∈ db.chunks, ∃ f ∈ db.files, f.id = c.fileId) :
    (∀ r ∈ hybridSearchM db bm25Ids qe lim, 0 ≤ r.score ∧ r.score ≤ 1) ∧
    (hybridSearchM db bm25Ids qe lim).Pairwise (fun a b => b.score ≤ a.score) ∧
    (∀ r, (hybridSearchM db bm25Ids qe lim).head? = some r → r.score = 1) ∧
    ((∀ a ∈ hybridTop db bm25Ids qe lim, ∀ b ∈ hybridTop db bm25Ids qe lim,
        a.score = b.score) →
      ∀ r ∈ hybridSearchM db bm25Ids qe lim, r.score = 1) := by
  have hids : ∀ ranked ∈ hybridTop db bm25Ids qe lim,
      ∃ c ∈ db.chunks, c.id = ranked.id := by
    intro ranked hr
    have hr2 := List.mem_of_mem_take (hr :
      ranked ∈ (mergeWithRRF
        [bm25Ids, (vectorSearchM db qe (lim * 2)).map Prod.fst] 60).take lim)
    rcases mergeWithRRF_id_mem _ 60 ranked hr2 with ⟨l, hl, hrl⟩
    rcases List.mem_cons.mp hl with rfl | hl2
    · exact hbm ranked.id hrl
    · rcases List.mem_cons.mp hl2 with rfl | hl3
      · rcases List.mem_map.mp hrl with ⟨p, hp, hpid⟩
        rcases vectorSearchM_ids db qe (lim * 2) p hp with ⟨c, hc, hcp⟩
        exact ⟨c, hc, by rw [hcp, hpid]⟩
      · cases hl3
  have htops : (hybridTop db bm25Ids qe lim).Pairwise scoreGe :=
    (mergeWithRRF_pairwise _ 60).take
  have hres : hybridSearchM db bm25Ids qe lim =
      (hybridTop db bm25Ids qe lim).filterMap
        (hydrateResult db (hybridMinS (hybridTop db bm25Ids qe lim))
          (hybridMaxS (hybridTop db bm25Ids qe lim) -
            hybridMinS (hybridTop db bm25Ids qe lim))) := rfl
  cases htop : hybridTop db bm25Ids qe lim with
  | nil =>
    rw [htop] at hres
    refine ⟨?_, ?_, ?_, ?_⟩
    · intro r hr; rw [hres] at hr; cases hr
    · rw [hres]; exact List.Pairwise.nil
    · intro r hr; rw [hres] at hr; cases hr
    · intro _ r hr; rw [hres] at hr; cases hr
  | cons t0 ts =>
    rw [htop] at hres hids htops
    have h := hybrid_norm_props db t0 ts htops hids hfk
    rw [hres]
    exact h

/-- indexFiles is the deletion pass followed by the per-file fold. -/
theorem indexFilesM_eq (fuel : Nat) (db : Store)
    (diskFiles : List (List Char × List Char)) (chunkSize overlap : Int)
    (embedder : List Char → List ℚ) :
    indexFilesM fuel db diskFiles chunkSize overlap embedder =
      diskFiles.foldl (fun ost file =>
          ost.bind (fun st => indexFileStepM fuel chunkSize overlap embedder st file))
        (some (db.files.foldl (fun st f =>
          if f.path ∈ diskFiles.map Prod.fst then st
          else deleteFileM (deleteChunksByFileIdM st f.id) f.id) db)) := rfl

/-- A plain fold preserves any invariant its step preserves. -/
theorem foldl_invar {α : Type} (P : Store → Prop) (f : Store → α → Store)
    (hstep : ∀ st x, P st → P (f st x)) :
    ∀ (xs : List α) (st : Store), P st → P (xs.foldl f st) := by
  intro xs
  induction xs with
  | nil => intro st h; exact h
  | cons x xs ih => intro st h; exact ih (f st x) (hstep st x h)

/-- The option-threaded fold preserves any invariant its step preserves. -/
theorem foldl_bind_invar {α : Type} (P : Store → Prop) (g : Store → α → Option Store)
    (hstep : ∀ st x st2, P st → g st x = some st2 → P st2) :
    ∀ (xs : List α) (ost : Option Store) (db2 : Store),
      (∀ st, ost = some st → P st) →
      xs.foldl (fun o x => o.bind (fun st => g st x)) ost = some db2 → P db2 := by
  intro xs
  induction xs with
  | nil =>
    intro ost db2 hP hrun
    exact hP db2 hrun
  | cons x xs ih =>
    intro ost db2 hP hrun
    refine ih (ost.bind (fun st => g st x)) db2 ?_ hrun
    intro st hst
    cases ost with
    | none => exact Option.noConfusion hst
    | some st0 => exact hstep st0 x st (hP st0 rfl) hst

/-- A fold with positions preserves any invariant its step preserves. -/
theorem foldIdx_invar {α : Type} (P : Store → Prop) (f : Store → Nat → α → Store)
    (hstep : ∀ st i x, P st → P (f st i x)) :
    ∀ (xs : List α) (st : Store) (i : Nat), P st → P (foldIdx f st i xs) := by
  intro xs
  induction xs with
  | nil => intro st i h; exact h
  | cons x xs ih => intro st i h; exact ih (f st i x) (i + 1) (hstep st i x h)

/-- Deleting the chunks of a file preserves coherence and the bounds. -/
theorem invar_deleteChunksByFileId (db : Store) (fid : Nat)
    (h : chunkFtsCoherent db ∧ seqBounded db) :
    chunkFtsCoherent (deleteChunksByFileIdM db fid) ∧
    seqBounded (deleteChunksByFileIdM db fid) := by
  refine ⟨?_, ?_, ?_⟩
  · intro c hc
    exact h.1 c (List.mem_of_mem_filter hc)
  · intro c hc
    exact h.2.1 c (List.mem_of_mem_filter hc)
  · intro r hr
    exact h.2.2 r hr

/-- Deleting a file row (with its chunk cascade) preserves both. -/
theorem invar_deleteFile (db : Store) (fid : Nat)
    (h : chunkFtsCoherent db ∧ seqBounded db) :
    chunkFtsCoherent (deleteFileM db fid) ∧ seqBounded (deleteFileM db fid) := by
  refine ⟨?_, ?_, ?_⟩
  · intro c hc
    exact h.1 c (List.mem_of_mem_filter hc)
  · intro c hc
    exact h.2.1 c (List.mem_of_mem_filter hc)
  · intro r hr
    exact h.2.2 r hr

/-- Rewriting a file hash touches no chunk or shadow row. -/
theorem invar_updateFileHash (db : Store) (fid : Nat) (hash : List Char)
    (h : chunkFtsCoherent db ∧ seqBounded db) :
    chunkFtsCoherent (updateFileHashM db fid hash) ∧
    seqBounded (updateFileHashM db fid hash) := by
  refine ⟨?_, ?_, ?_⟩
  · intro c hc
    exact h.1 c hc
  · intro c hc
    exact h.2.1 c hc
  · intro r hr
    exact h.2.2 r hr

/-- Inserting a file row touches no chunk or shadow row. -/
theorem invar_insertFile (db : Store) (path hash : List Char)
    (h : chunkFtsCoherent db ∧ seqBounded db) :
    chunkFtsCoherent (insertFileM db path hash).1 ∧
    seqBounded (insertFileM db path hash).1 := by
  refine ⟨?_, ?_, ?_⟩
  · intro c hc
    exact h.1 c hc
  · intro c hc
    exact h.2.1 c hc
  · intro r hr
    exact h.2.2 r hr

/-- The paired insert of a chunk row and its shadow row keeps every live
chunk at exactly one shadow row: the fresh identifier is above every
existing chunk identifier and shadow rowid. -/
theorem invar_insertPair (db : Store) (fid idx : Nat) (content raw : List Char)
    (emb : List Nat) (h : chunkFtsCoherent db ∧ seqBounded db) :
    chunkFtsCoherent (insertChunkFtsM
        (insertChunkWithEmbeddingM db fid idx content raw emb).1
        (insertChunkWithEmbeddingM db fid idx content raw emb).2 content) ∧
    seqBounded (insertChunkFtsM
        (insertChunkWithEmbeddingM db fid idx content raw emb).1
        (insertChunkWithEmbeddingM db fid idx content raw emb).2 content) := by
  obtain ⟨hcoh, hcid, hfts⟩ := h
  refine ⟨?_, ?_, ?_⟩
  · intro c hc
    have hc2 : c ∈ db.chunks ++
        [(⟨db.seqChunks + 1, fid, idx, content, raw, some emb⟩ : ChunkRow)] := hc
    show (db.chunksFts ++ [(⟨db.seqChunks + 1, content⟩ : FtsRow)]).countP
      (fun r => r.rowid = c.id) = 1
    rw [List.countP_append]
    rcases List.mem_append.mp hc2 with hold | hnew
    · have hle : c.id ≤ db.seqChunks := hcid c hold
      have h1 : db.chunksFts.countP (fun r => r.rowid = c.id) = 1 := hcoh c hold
      have h0 : List.countP (fun r => decide (r.rowid = c.id))
          [(⟨db.seqChunks + 1, content⟩ : FtsRow)] = 0 := by
        simp only [List.countP_cons, List.countP_nil, decide_eq_true_eq]
        rw [if_neg (by omega : ¬ db.seqChunks + 1 = c.id)]
      rw [h1, h0]
    · have hcid2 : c.id = db.seqChunks + 1 := by
        rw [List.mem_singleton.mp hnew]
      rw [hcid2]
      have h0 : db.chunksFts.countP (fun r => decide (r.rowid = db.seqChunks + 1)) = 0 := by
        rw [List.countP_eq_zero]
        intro r hr
        have hle := hfts r hr
        simp only [decide_eq_true_eq]
        omega
      rw [List.countP_cons, List.countP_nil, h0]
      simp
  · intro c hc
    have hc2 : c ∈ db.chunks ++
        [(⟨db.seqChunks + 1, fid, idx, content, raw, some emb⟩ : ChunkRow)] := hc
    show c.id ≤ db.seqChunks + 1
    rcases List.mem_append.mp hc2 with hold | hnew
    · exact Nat.le_succ_of_le (hcid c hold)
    · rw [List.mem_singleton.mp hnew]
  · intro r hr
    have hr2 : r ∈ db.chunksFts ++ [(⟨db.seqChunks + 1, content⟩ : FtsRow)] := hr
    show r.rowid ≤ db.seqChunks + 1
    rcases List.mem_append.mp hr2 with hold | hnew
    · exact Nat.le_succ_of_le (hfts r hold)
    · rw [List.mem_singleton.mp hnew]

/-- processFileContent preserves coherence and the bounds: each emitted
chunk performs the paired insert. -/
theorem invar_processFileContent (fuel : Nat) (db : Store) (fid : Nat)
    (content : List Char) (chunkSize overlap : Int)
    (embedder : List Char → List ℚ) (db2 : Store)
    (h : chunkFtsCoherent db ∧ seqBounded db)
    (hrun : processFileContentM fuel db fid content chunkSize overlap embedder = some db2) :
    chunkFtsCoherent db2 ∧ seqBounded db2 := by
  simp only [processFileContentM] at hrun
  cases hchunks : chunkText fuel content chunkSize overlap with
  | none =>
    rw [hchunks, Option.map_none'] at hrun
    exact Option.noConfusion hrun
  | some chunks =>
    rw [hchunks, Option.map_some'] at hrun
    have hdb : foldIdx (fun st i chunkContent =>
        insertChunkFtsM (insertChunkWithEmbeddingM st fid i chunkContent chunkContent
            (serializeEmbedding (embedder chunkContent))).1
          (insertChunkWithEmbeddingM st fid i chunkContent chunkContent
            (serializeEmbedding (embedder chunkContent))).2 chunkContent)
        db 0 chunks = db2 := Option.some.inj hrun
    rw [← hdb]
    exact foldIdx_invar (fun st => chunkFtsCoherent st ∧ seqBounded st) _
      (fun st i x hst => invar_insertPair st fid i x x
        (serializeEmbedding (embedder x)) hst)
      chunks db 0 h

/-- Each per-file ingestion step preserves coherence and the bounds. -/
theorem invar_indexFileStep (fuel : Nat) (chunkSize overlap : Int)
    (embedder : List Char → List ℚ) (st : Store)
    (file : List Char × List Char) (st2 : Store)
    (h : chunkFtsCoherent st ∧ seqBounded st)
    (hrun : indexFileStepM fuel chunkSize overlap embedder st file = some st2) :
    chunkFtsCoherent st2 ∧ seqBounded st2 := by
  cases hfind : getFileByPathM st file.1 with
  | some existing =>
    simp only [indexFileStepM, hfind] at hrun
    by_cases hh : existing.hash = sha256hex file.2
    · rw [if_pos hh] at hrun
      exact Option.some.inj hrun ▸ h
    · rw [if_neg hh] at hrun
      exact invar_processFileContent fuel _ existing.id file.2 chunkSize overlap
        embedder st2
        (invar_updateFileHash _ existing.id (sha256hex file.2)
          (invar_deleteChunksByFileId st existing.id h)) hrun
  | none =>
    simp only [indexFileStepM, hfind] at hrun
    exact invar_processFileContent fuel _ _ file.2 chunkSize overlap embedder st2
      (invar_insertFile st file.1 (sha256hex file.2) h) hrun

set_option maxRecDepth 100000 in
/-- C2: starting from a store in which every Fragment owns exactly one
lexical shadow row keyed by its identifier and all chunk identifiers and
shadow rowids are bounded by the chunks autoincrement counter, any
completed note-ingestion run preserves both properties, so every Fragment
of the resulting store again owns exactly one shadow row. The run does
not remove the shadow rows of deleted Fragments, and no transaction wraps
the deletion with the re-insertion; see the counterexample. -/
theorem chunkFts_coherence (fuel : Nat) (db : Store)
    (diskFiles : List (List Char × List Char)) (chunkSize overlap : Int)
    (embedder : List Char → List ℚ) (db2 : Store)
    (hinv : chunkFtsCoherent db ∧ seqBounded db)
    (hrun : indexFilesM fuel db diskFiles chunkSize overlap embedder = some db2) :
    chunkFtsCoherent db2 ∧ seqBounded db2 := by
  rw [indexFilesM_eq] at hrun
  have hstep0 : ∀ (st0 : Store) (f : FileRow),
      (chunkFtsCoherent st0 ∧ seqBounded st0) →
      chunkFtsCoherent (if f.path ∈ diskFiles.map Prod.fst then st0
        else deleteFileM (deleteChunksByFileIdM st0 f.id) f.id) ∧
      seqBounded (if f.path ∈ diskFiles.map Prod.fst then st0
        else deleteFileM (deleteChunksByFileIdM st0 f.id) f.id) := by
    intro st0 f h0
    by_cases hp : f.path ∈ diskFiles.map Prod.fst
    · rw [if_pos hp]
      exact h0
    · rw [if_neg hp]
      exact invar_deleteFile _ f.id (invar_deleteChunksByFileId st0 f.id h0)
  have hinit : ∀ st, (some (db.files.foldl (fun st f =>
      if f.path ∈ diskFiles.map Prod.fst then st
      else deleteFileM (deleteChunksByFileIdM st f.id) f.id) db) : Option Store) =
      some st → chunkFtsCoherent st ∧ seqBounded st := by
    intro st hst
    rw [← Option.some.inj hst]
    exact foldl_invar _ _ hstep0 db.files db hinv
  exact foldl_bind_invar (fun s => chunkFtsCoherent s ∧ seqBounded s)
    (indexFileStepM fuel chunkSize overlap embedder)
    (fun st x st2 hst hgx =>
      invar_indexFileStep fuel chunkSize overlap embedder st x st2 hst hgx)
    diskFiles _ db2 hinit hrun

set_option maxRecDepth 100000 in
/-- Coherence and the bounds hold of the empty store and, through the
theorem applied to the first ingestion run, of its resulting store. -/
theorem chunkFts_coherence_witness :
    (chunkFtsCoherent emptyStore ∧ seqBounded emptyStore) ∧
    (chunkFtsCoherent notesRun1Store ∧ seqBounded notesRun1Store) :=
  ⟨⟨by decide, by decide⟩,
    chunkFts_coherence 9 emptyStore [("a.md".toList, "hello".toList)] 500 50
      (fun _ => []) notesRun1Store ⟨by decide, by decide⟩ (by decide)⟩

set_option maxRecDepth 100000 in
/-- Counterexample for C2: re-ingesting a changed note file deletes the
old Fragment but leaves its shadow row behind; after the second run one
Fragment is live, two shadow rows exist, and one of them is an orphan. -/
theorem chunkFts_counterexample :
    notesRun2.map hasOrphanFts = some true ∧
    notesRun2.map (fun db => db.chunksFts.length) = some 2 ∧
    notesRun2.map (fun db => db.chunks.length) = some 1 :=
  ⟨by decide, by decide, by decide⟩

set_option maxRecDepth 10000 in
/-- Concrete hybrid search over a one-chunk store: the ranker hypotheses
hold and every display score is within the unit interval. -/
theorem hybrid_display_scores_witness :
    (∀ i ∈ [1], ∃ c ∈ zeroEmbStore.chunks, c.id = i) ∧
    (∀ c ∈ zeroEmbStore.chunks, ∃ f ∈ zeroEmbStore.files, f.id = c.fileId) ∧
    (∀ r ∈ hybridSearchM zeroEmbStore [1] [0, 0, 0] 5, 0 ≤ r.score ∧ r.score ≤ 1) :=
  ⟨by decide, by decide,
    (hybrid_display_scores zeroEmbStore [1] [0, 0, 0] 5 (by decide) (by decide)).1⟩


end ContextCache
